import Mathlib

/-!
# Verification of the shiplog changelog engine

A shallow embedding of the shiplog repository's core logic:
the structured release data model, the snapshot differ
(`diffVersions` in `src/app/page.tsx`), the three format renderers
(`generateMarkdown`, `generateJSON`, `generateHTML`) and the free-text
changelog parser (`parseChangelogText`).

Strings are modelled as `List Char` (JavaScript strings are sequences of
code units; all inputs of interest are sequences of Unicode scalar
values, which `List Char` captures directly).  String literals from the
source appear as `"...".data`.
-/

namespace Shiplog

/-- JavaScript strings, modelled as lists of Unicode scalar values. -/
abbrev JStr := List Char

/-- The six change categories (`ChangeType` union in `src/lib/types.ts`). -/
inductive ChangeType where
  | added | changed | fixed | removed | security | deprecated
  deriving DecidableEq, Repr

/-- The string tag of a category, as it appears in the TypeScript union
(used verbatim when the value is interpolated into a template literal or
serialized to JSON). -/
def ChangeType.tag : ChangeType → JStr
  | .added => "added".data
  | .changed => "changed".data
  | .fixed => "fixed".data
  | .removed => "removed".data
  | .security => "security".data
  | .deprecated => "deprecated".data

/-- Display label of a category (`changeTypeConfig[t].label`). -/
def ChangeType.label : ChangeType → JStr
  | .added => "Added".data
  | .changed => "Changed".data
  | .fixed => "Fixed".data
  | .removed => "Removed".data
  | .security => "Security".data
  | .deprecated => "Deprecated".data

/-- Emoji of a category (`changeTypeConfig[t].emoji`). -/
def ChangeType.emoji : ChangeType → JStr
  | .added => "✨".data
  | .changed => "🔄".data
  | .fixed => "🐛".data
  | .removed => "🗑️".data
  | .security => "🔒".data
  | .deprecated => "⚠️".data

/-- HTML color of a category (`typeColors` in `generateHTML`). -/
def ChangeType.htmlColor : ChangeType → JStr
  | .added => "#22c55e".data
  | .changed => "#3b82f6".data
  | .fixed => "#eab308".data
  | .removed => "#ef4444".data
  | .security => "#a855f7".data
  | .deprecated => "#f97316".data

/-- The fixed taxonomy order in which every renderer iterates the six
category buckets.  This is the key insertion order of the `grouped`
object literal in the source, which `Object.entries` replays. -/
def taxonomy : List ChangeType :=
  [.added, .changed, .fixed, .removed, .security, .deprecated]

/-- One change entry (`ChangeItem` interface). -/
structure ChangeItem where
  id : JStr
  type : ChangeType
  description : JStr
  deriving DecidableEq, Repr

/-- One release (`Release` interface). -/
structure Release where
  version : JStr
  date : JStr
  changes : List ChangeItem
  deriving DecidableEq, Repr

/-- A saved version snapshot (`VersionSnapshot` interface in
`src/app/page.tsx`). -/
structure Snapshot where
  id : JStr
  name : JStr
  releases : List Release
  createdAt : JStr
  deriving DecidableEq, Repr

/-! ## The snapshot differ (`diffVersions`, src/app/page.tsx) -/

/-- An entry of the `added`/`removed` lists of a diff. -/
structure DiffEntry where
  release : JStr
  change : JStr
  deriving DecidableEq, Repr

/-- An entry of the `modified` list of a diff. -/
structure ModEntry where
  release : JStr
  oldVersion : JStr
  newVersion : JStr
  deriving DecidableEq, Repr

/-- The result record of `diffVersions`. -/
structure VersionDiff where
  added : List DiffEntry
  removed : List DiffEntry
  modified : List ModEntry
  deriving DecidableEq, Repr

/-- The composite key `version::type::description` built for every
change when populating the two `Set<string>`s. -/
def mkKey (version : JStr) (t : ChangeType) (description : JStr) : JStr :=
  version ++ "::".data ++ t.tag ++ "::".data ++ description

/-- `Set.add`: JavaScript sets keep insertion order and drop duplicates,
so the set is a duplicate-free list extended at the back. -/
def addKey (s : List JStr) (k : JStr) : List JStr :=
  if k ∈ s then s else s ++ [k]

/-- The change-key set built from a release list
(the `olderChanges` / `newerChanges` sets). -/
def buildKeys (releases : List Release) : List JStr :=
  releases.foldl
    (fun s r => r.changes.foldl (fun s c => addKey s (mkKey r.version c.type c.description)) s)
    []

/-- `Map.set`: insertion-ordered association list; setting an existing
key overwrites its value in place, a new key is appended. -/
def mapSet (m : List (JStr × JStr)) (k v : JStr) : List (JStr × JStr) :=
  if m.any (fun p => p.1 = k) then
    m.map (fun p => if p.1 = k then (k, v) else p)
  else m ++ [(k, v)]

/-- The version → date map built from a release list
(the `olderVersions` / `newerVersions` maps). -/
def buildVers (releases : List Release) : List (JStr × JStr) :=
  releases.foldl (fun m r => mapSet m r.version r.date) []

/-- Keys of a map, in insertion order (`Array.from(m.keys())`). -/
def mapKeys (m : List (JStr × JStr)) : List JStr := m.map (fun p => p.1)

/-- `change.split('::')` — leftmost, non-overlapping split on the two-character
separator, with an explicit accumulator for the segment being read. -/
def splitDC : JStr → JStr → List JStr
  | ':' :: ':' :: rest, acc => acc.reverse :: splitDC rest []
  | c :: rest, acc => splitDC rest (c :: acc)
  | [], acc => [acc.reverse]

/-- The body of the `added`/`removed` push: destructure
`const [release, , desc] = change.split('::')` and push
`\x7brelease, change: desc\x7d` only when `desc` is truthy. -/
def splitEntry (k : JStr) : Option DiffEntry :=
  let parts := splitDC k []
  let release := parts.getD 0 []
  let desc := parts.getD 2 []
  if desc ≠ [] then some ⟨release, desc⟩ else none

/-- `diffVersions(older, newer)`: set difference of composite change keys
in both directions, plus the version-rename heuristic.  The source guards
the push with `if (oldV)`: a JavaScript string is falsy when empty, so the
entry is pushed only when the found old version is a nonempty string. -/
def diffVersions (older newer : Snapshot) : VersionDiff :=
  let olderChanges := buildKeys older.releases
  let newerChanges := buildKeys newer.releases
  let olderVersions := buildVers older.releases
  let newerVersions := buildVers newer.releases
  let added := (newerChanges.filter (fun k => ¬ k ∈ olderChanges)).filterMap splitEntry
  let removed := (olderChanges.filter (fun k => ¬ k ∈ newerChanges)).filterMap splitEntry
  let modified := newerVersions.filterMap (fun p =>
    if olderVersions.any (fun q => q.1 = p.1) then none
    else
      let oldVersions := mapKeys olderVersions
      let newVersions := mapKeys newerVersions
      if oldVersions.length = newVersions.length ∧ oldVersions.length > 0 then
        match oldVersions.find? (fun v => ¬ newerVersions.any (fun q => q.1 = v)) with
        | some oldV =>
          if oldV ≠ [] then some ⟨"Version".data, oldV, p.1⟩ else none
        | none => none
      else none)
  ⟨added, removed, modified⟩

/-! ### Basic lemmas about the differ's data structures -/

theorem mem_addKey {s : List JStr} {k x : JStr} :
    x ∈ addKey s k ↔ x ∈ s ∨ x = k := by
  unfold addKey
  split
  · constructor
    · exact fun h => Or.inl h
    · rintro (h | rfl)
      · exact h
      · assumption
  · simp [List.mem_append]

theorem mem_buildKeys_foldl (cs : List ChangeItem) (v : JStr) (init : List JStr) (x : JStr) :
    x ∈ cs.foldl (fun s c => addKey s (mkKey v c.type c.description)) init ↔
      x ∈ init ∨ ∃ c ∈ cs, x = mkKey v c.type c.description := by
  induction cs generalizing init with
  | nil => simp
  | cons c cs ih =>
    simp only [List.foldl_cons, ih, mem_addKey, List.mem_cons]
    constructor
    · rintro ((h | rfl) | ⟨c', hc', rfl⟩)
      · exact Or.inl h
      · exact Or.inr ⟨c, Or.inl rfl, rfl⟩
      · exact Or.inr ⟨c', Or.inr hc', rfl⟩
    · rintro (h | ⟨c', (rfl | hc'), rfl⟩)
      · exact Or.inl (Or.inl h)
      · exact Or.inl (Or.inr rfl)
      · exact Or.inr ⟨c', hc', rfl⟩

theorem mem_buildKeys_aux (rs : List Release) (init : List JStr) (x : JStr) :
    x ∈ rs.foldl
        (fun s r => r.changes.foldl (fun s c => addKey s (mkKey r.version c.type c.description)) s)
        init ↔
      x ∈ init ∨ ∃ r ∈ rs, ∃ c ∈ r.changes, x = mkKey r.version c.type c.description := by
  induction rs generalizing init with
  | nil => simp
  | cons r rs ih =>
    simp only [List.foldl_cons, ih, mem_buildKeys_foldl, List.mem_cons]
    constructor
    · rintro ((h | ⟨c, hc, rfl⟩) | ⟨r', hr', c, hc, rfl⟩)
      · exact Or.inl h
      · exact Or.inr ⟨r, Or.inl rfl, c, hc, rfl⟩
      · exact Or.inr ⟨r', Or.inr hr', c, hc, rfl⟩
    · rintro (h | ⟨r', (rfl | hr'), c, hc, rfl⟩)
      · exact Or.inl (Or.inl h)
      · exact Or.inl (Or.inr ⟨c, hc, rfl⟩)
      · exact Or.inr ⟨r', hr', c, hc, rfl⟩

theorem mem_buildKeys (rs : List Release) (x : JStr) :
    x ∈ buildKeys rs ↔ ∃ r ∈ rs, ∃ c ∈ r.changes, x = mkKey r.version c.type c.description := by
  simpa [buildKeys] using mem_buildKeys_aux rs [] x

theorem mem_map_fst_of_mem {m : List (JStr × JStr)} {p : JStr × JStr} (h : p ∈ m) :
    m.any (fun q => q.1 = p.1) = true := by
  simp only [List.any_eq_true, decide_eq_true_eq]
  exact ⟨p, h, rfl⟩

/-- **C4.** Diffing a snapshot against itself yields three empty lists:
`diff(S, S) = \x7badded: [], removed: [], modified: []\x7d`, for any
snapshot `S`, including snapshots with duplicate version strings or
empty descriptions. -/
theorem diff_self_empty (S : Snapshot) : diffVersions S S = ⟨[], [], []⟩ := by
  unfold diffVersions
  simp only [VersionDiff.mk.injEq]
  refine ⟨?_, ?_, ?_⟩
  · rw [List.filter_eq_nil_iff.mpr, List.filterMap_nil]
    intro k hk
    simp [hk]
  · rw [List.filter_eq_nil_iff.mpr, List.filterMap_nil]
    intro k hk
    simp [hk]
  · rw [List.filterMap_eq_nil_iff]
    intro p hp
    simp [mem_map_fst_of_mem hp]

/-- Whether a string contains the separator substring `::`. -/
def hasDC : JStr → Bool
  | ':' :: ':' :: _ => true
  | _ :: rest => hasDC rest
  | [] => false

theorem hasDC_cons_of_ne {c : Char} {v : JStr} (h : hasDC (c :: v) = false) : hasDC v = false := by
  cases v with
  | nil => simp [hasDC]
  | cons c' v' =>
    by_cases hc : c = ':'
    · subst hc
      by_cases hc' : c' = ':'
      · subst hc'; simp [hasDC] at h
      · simpa [hasDC, hc'] using h
    · simpa [hasDC, hc] using h

theorem splitDC_clean_sep (v : JStr) (hv : hasDC v = false) (hlast : v.getLast? ≠ some ':') :
    ∀ (acc d : JStr), splitDC (v ++ ':' :: ':' :: d) acc = (acc.reverse ++ v) :: splitDC d [] := by
  induction v with
  | nil => intro acc d; simp [splitDC]
  | cons c v ih =>
    intro acc d
    by_cases hc : c = ':'
    · subst hc
      match v, hv, hlast with
      | [], hv, hlast => simp at hlast
      | ':' :: v', hv, _ => simp [hasDC] at hv
      | c' :: v', hv, hlast =>
        have hc' : c' ≠ ':' := by
          intro h; rw [h] at hv; simp [hasDC] at hv
        have hv' : hasDC (c' :: v') = false := by
          simpa [hasDC, hc'] using hv
        have hlast' : (c' :: v').getLast? ≠ some ':' := by
          simpa [List.getLast?_cons_cons] using hlast
        have step : splitDC ((':' :: c' :: v') ++ ':' :: ':' :: d) acc
            = splitDC ((c' :: v') ++ ':' :: ':' :: d) (':' :: acc) := by
          simp [splitDC, hc']
        rw [step, ih hv' hlast' (':' :: acc) d]
        simp
    · have hv' : hasDC v = false := hasDC_cons_of_ne hv
      have hlast' : v = [] ∨ v.getLast? ≠ some ':' := by
        cases v with
        | nil => exact Or.inl rfl
        | cons x xs => exact Or.inr (by simpa [List.getLast?_cons_cons] using hlast)
      have step : splitDC ((c :: v) ++ ':' :: ':' :: d) acc
          = splitDC (v ++ ':' :: ':' :: d) (c :: acc) := by
        cases v with
        | nil => simp [splitDC, hc]
        | cons x xs => by_cases hx : x = ':' <;> simp [splitDC, hc, hx]
      rcases hlast' with rfl | hlast'
      · rw [step]; simp [splitDC]
      · rw [step, ih hv' hlast' (c :: acc) d]; simp

theorem splitDC_clean_last (d : JStr) (hd : hasDC d = false) :
    ∀ acc, splitDC d acc = [acc.reverse ++ d] := by
  induction d with
  | nil => intro acc; simp [splitDC]
  | cons c d ih =>
    intro acc
    have hd' : hasDC d = false := hasDC_cons_of_ne hd
    have step : splitDC (c :: d) acc = splitDC d (c :: acc) := by
      cases d with
      | nil => by_cases hc : c = ':' <;> simp [splitDC, hc]
      | cons x xs =>
        by_cases hc : c = ':'
        · subst hc
          have hx : x ≠ ':' := by intro h; rw [h] at hd; simp [hasDC] at hd
          simp [splitDC, hx]
        · by_cases hx : x = ':' <;> simp [splitDC, hc, hx]
    rw [step, ih hd' (c :: acc)]
    simp

theorem tag_clean (t : ChangeType) : hasDC t.tag = false ∧ t.tag.getLast? ≠ some ':' := by
  cases t <;> decide

theorem tag_colon_clean (t : ChangeType) :
    hasDC (':' :: t.tag) = false ∧ (':' :: t.tag).getLast? ≠ some ':' := by
  cases t <;> decide

theorem hasDC_append_left {xs ys : JStr} (h : hasDC (xs ++ ys) = false) :
    hasDC xs = false := by
  induction xs with
  | nil => rfl
  | cons c xs ih =>
    cases xs with
    | nil => by_cases hc : c = ':' <;> simp [hasDC, hc]
    | cons c2 xs2 =>
      by_cases hc : c = ':'
      · subst hc
        by_cases hc2 : c2 = ':'
        · subst hc2
          simp [hasDC] at h
        · have h2 : hasDC ((c2 :: xs2) ++ ys) = false := by
            simpa [hasDC, hc2] using h
          simpa [hasDC, hc2] using ih h2
      · have h2 : hasDC ((c2 :: xs2) ++ ys) = false := by
          simpa [hasDC, hc] using h
        simpa [hasDC, hc] using ih h2

theorem hasDC_has (u ys : JStr) : hasDC (u ++ ':' :: ':' :: ys) = true := by
  induction u with
  | nil => simp [hasDC]
  | cons c u ih =>
    cases u with
    | nil =>
      by_cases hc : c = ':'
      · subst hc; simp [hasDC]
      · simpa [hasDC, hc] using ih
    | cons c2 u2 =>
      by_cases hc : c = ':'
      · subst hc
        by_cases hc2 : c2 = ':'
        · subst hc2; simp [hasDC]
        · simpa [hasDC, hc2] using ih
      · simpa [hasDC, hc] using ih

theorem splitDC_mkKey (v d : JStr) (t : ChangeType)
    (hv : hasDC v = false) (hv2 : v.getLast? ≠ some ':') (hd : hasDC d = false) :
    splitDC (mkKey v t d) [] = [v, t.tag, d] := by
  have hkey : mkKey v t d = v ++ ':' :: ':' :: (t.tag ++ ':' :: ':' :: d) := by
    show v ++ "::".data ++ t.tag ++ "::".data ++ d = _
    have hs : "::".data = [':', ':'] := rfl
    simp [hs]
  rw [hkey, splitDC_clean_sep v hv hv2 [] _,
    splitDC_clean_sep t.tag (tag_clean t).1 (tag_clean t).2 [] d,
    splitDC_clean_last d hd []]
  simp

theorem splitEntry_mkKey (v d : JStr) (t : ChangeType)
    (hv : hasDC v = false) (hv2 : v.getLast? ≠ some ':') (hd : hasDC d = false) :
    splitEntry (mkKey v t d) = if d ≠ [] then some ⟨v, d⟩ else none := by
  unfold splitEntry
  rw [splitDC_mkKey v d t hv hv2 hd]
  simp [List.getD]

theorem diffVersions_added (older newer : Snapshot) :
    (diffVersions older newer).added
      = ((buildKeys newer.releases).filter
          (fun k => ¬ k ∈ buildKeys older.releases)).filterMap splitEntry := rfl

theorem diffVersions_removed (older newer : Snapshot) :
    (diffVersions older newer).removed
      = ((buildKeys older.releases).filter
          (fun k => ¬ k ∈ buildKeys newer.releases)).filterMap splitEntry := rfl

/-- **C3 (amended).** For every pair of snapshots and every change entry
present (by composite key) on exactly one side, whose description is
nonempty and whose version and description contain no `::` (the version
also not ending in `:`), the differ reports
`\x7brelease: version, change: description\x7d` in `added` (entry only in
`newer`) resp. `removed` (entry only in `older`).  The provisos are
forced: the composite key is split back on `::`, so a separator
occurring inside a field corrupts the reported parts, and an empty
description is dropped. -/
theorem diff_reports_one_sided_changes (older newer : Snapshot) (r : Release) (c : ChangeItem)
    (hv : hasDC r.version = false) (hv2 : r.version.getLast? ≠ some ':')
    (hd : hasDC c.description = false) (hne : c.description ≠ []) :
    (r ∈ newer.releases → c ∈ r.changes →
        mkKey r.version c.type c.description ∉ buildKeys older.releases →
        (⟨r.version, c.description⟩ : DiffEntry) ∈ (diffVersions older newer).added) ∧
    (r ∈ older.releases → c ∈ r.changes →
        mkKey r.version c.type c.description ∉ buildKeys newer.releases →
        (⟨r.version, c.description⟩ : DiffEntry) ∈ (diffVersions older newer).removed) := by
  constructor
  · intro hr hc hnot
    rw [diffVersions_added]
    apply List.mem_filterMap.mpr
    refine ⟨mkKey r.version c.type c.description, ?_, ?_⟩
    · exact List.mem_filter.mpr ⟨(mem_buildKeys _ _).mpr ⟨r, hr, c, hc, rfl⟩, by simp [hnot]⟩
    · rw [splitEntry_mkKey _ _ _ hv hv2 hd]
      simp [hne]
  · intro hr hc hnot
    rw [diffVersions_removed]
    apply List.mem_filterMap.mpr
    refine ⟨mkKey r.version c.type c.description, ?_, ?_⟩
    · exact List.mem_filter.mpr ⟨(mem_buildKeys _ _).mpr ⟨r, hr, c, hc, rfl⟩, by simp [hnot]⟩
    · rw [splitEntry_mkKey _ _ _ hv hv2 hd]
      simp [hne]

/-- **C3 witness.** A concrete one-sided change (description `Y` of
version `1.0.0`, absent from the empty older snapshot) is reported in
`added`. -/
theorem diff_reports_one_sided_changes_witness :
    (⟨"1.0.0".data, "Y".data⟩ : DiffEntry) ∈
      (diffVersions ⟨"o".data, "old".data, [], "t0".data⟩
        ⟨"n".data, "new".data,
          [⟨"1.0.0".data, "2024-01-01".data, [⟨"i1".data, ChangeType.fixed, "Y".data⟩]⟩],
          "t1".data⟩).added :=
  (diff_reports_one_sided_changes
      ⟨"o".data, "old".data, [], "t0".data⟩
      ⟨"n".data, "new".data,
        [⟨"1.0.0".data, "2024-01-01".data, [⟨"i1".data, ChangeType.fixed, "Y".data⟩]⟩],
        "t1".data⟩
      ⟨"1.0.0".data, "2024-01-01".data, [⟨"i1".data, ChangeType.fixed, "Y".data⟩]⟩
      ⟨"i1".data, ChangeType.fixed, "Y".data⟩
      (by decide) (by decide) (by decide) (by decide)).1
    (by decide) (by decide) (by decide)

/-- **C3 counterexample.** A description containing the separator `::`
is reported corrupted: for the change `x::y` of version `1.0.0`, present
only in the newer snapshot, the claimed entry
`\x7brelease: "1.0.0", change: "x::y"\x7d` is NOT in `added` (the code
reports `change: "x"` instead, the third segment of the split key). -/
theorem diff_added_key_corruption :
    (⟨"1.0.0".data, "x::y".data⟩ : DiffEntry) ∉
      (diffVersions ⟨"o".data, "old".data, [], "t0".data⟩
        ⟨"n".data, "new".data,
          [⟨"1.0.0".data, "2024-01-01".data, [⟨"i1".data, ChangeType.added, "x::y".data⟩]⟩],
          "t1".data⟩).added := by
  decide

/-- **C8 (amended).** Every entry of the differ's `added` and `removed`
lists has a nonempty `change` field (the report is pushed only when the
third segment of the split composite key is truthy), and the key of a
change with empty description splits to an empty third segment — hence
no report — whenever the version string is `::`-free.  (A version ending
in a single `:` merely shifts the boundary of the first two segments;
the third segment stays empty.  The `::`-free proviso is forced: a `::`
inside the version shifts the split so that the third segment is
nonempty even for an empty description.) -/
theorem diff_drops_empty_descriptions (older newer : Snapshot) :
    (∀ e ∈ (diffVersions older newer).added, e.change ≠ []) ∧
    (∀ e ∈ (diffVersions older newer).removed, e.change ≠ []) ∧
    (∀ (v : JStr) (t : ChangeType), hasDC v = false →
      splitEntry (mkKey v t []) = none) := by
  have hgen : ∀ (l : List JStr), ∀ e ∈ l.filterMap splitEntry, e.change ≠ [] := by
    intro l e he
    obtain ⟨k, _, hk⟩ := List.mem_filterMap.mp he
    unfold splitEntry at hk
    simp only [] at hk
    split at hk
    · obtain rfl := Option.some_injective _ hk
      assumption
    · exact absurd hk (by simp)
  refine ⟨?_, ?_, ?_⟩
  · rw [diffVersions_added]; exact hgen _
  · rw [diffVersions_removed]; exact hgen _
  · intro v t hv
    by_cases hlast : v.getLast? = some ':'
    · obtain ⟨w, rfl⟩ := List.getLast?_eq_some_iff.mp hlast
      have hw : hasDC w = false := hasDC_append_left hv
      have hwl : w.getLast? ≠ some ':' := by
        intro hlw
        obtain ⟨u, rfl⟩ := List.getLast?_eq_some_iff.mp hlw
        have htrue : hasDC ((u ++ [':']) ++ [':']) = true := by
          rw [show ((u ++ [':']) ++ [':'] : JStr) = u ++ ':' :: ':' :: [] from by simp]
          exact hasDC_has u []
        rw [hv] at htrue
        exact Bool.false_ne_true htrue
      have hkey : mkKey (w ++ [':']) t []
          = w ++ ':' :: ':' :: (':' :: t.tag ++ ':' :: ':' :: []) := by
        show (w ++ [':']) ++ "::".data ++ t.tag ++ "::".data ++ [] = _
        have hs : "::".data = [':', ':'] := rfl
        simp [hs]
      unfold splitEntry
      rw [hkey, splitDC_clean_sep w hw hwl [] _]
      rw [show (':' :: t.tag ++ ':' :: ':' :: ([] : JStr))
            = (':' :: t.tag) ++ ':' :: ':' :: [] from by simp]
      rw [splitDC_clean_sep (':' :: t.tag) (tag_colon_clean t).1 (tag_colon_clean t).2 [] []]
      rw [splitDC_clean_last [] (by simp [hasDC]) []]
      simp [List.getD]
    · rw [splitEntry_mkKey v [] t hv hlast (by simp [hasDC])]
      simp

/-- **C8 witness.** A concrete reported entry, produced by the theorem,
with its nonempty change field. -/
theorem diff_drops_empty_descriptions_witness :
    (⟨"2.0.0".data, "Z".data⟩ : DiffEntry) ∈
      (diffVersions ⟨"o".data, "old".data, [], "t0".data⟩
        ⟨"n".data, "new".data,
          [⟨"2.0.0".data, "2024-02-02".data, [⟨"i2".data, ChangeType.added, "Z".data⟩]⟩],
          "t1".data⟩).added ∧
    ("Z".data : JStr) ≠ [] :=
  ⟨by decide,
    (diff_drops_empty_descriptions ⟨"o".data, "old".data, [], "t0".data⟩
        ⟨"n".data, "new".data,
          [⟨"2.0.0".data, "2024-02-02".data, [⟨"i2".data, ChangeType.added, "Z".data⟩]⟩],
          "t1".data⟩).1
      ⟨"2.0.0".data, "Z".data⟩ (by decide)⟩

/-- **C8 counterexample.** When the version string itself contains `::`
(version `a::b`), a change whose description is the empty string is NOT
silently omitted: its key `a::b::added::` splits with a nonempty third
segment (`added`), so an entry is pushed and `added` is nonempty, against
the claim's unconditional omission. -/
theorem diff_empty_description_reported :
    (diffVersions ⟨"o".data, "old".data, [], "t0".data⟩
      ⟨"n".data, "new".data,
        [⟨"a::b".data, "2024-01-01".data, [⟨"i1".data, ChangeType.added, []⟩]⟩],
        "t1".data⟩).added ≠ [] := by
  decide

/-! ### Version-rename inference (`modified`) -/

theorem any_fst_eq_iff (m : List (JStr × JStr)) (k : JStr) :
    (m.any (fun q => q.1 = k) = true) ↔ k ∈ mapKeys m := by
  simp only [List.any_eq_true, decide_eq_true_eq, mapKeys, List.mem_map]

theorem mapKeys_mapSet (m : List (JStr × JStr)) (k v : JStr) :
    mapKeys (mapSet m k v) = if k ∈ mapKeys m then mapKeys m else mapKeys m ++ [k] := by
  unfold mapSet
  by_cases h : m.any (fun p => p.1 = k) = true
  · rw [if_pos h, if_pos ((any_fst_eq_iff m k).mp h)]
    unfold mapKeys
    rw [List.map_map]
    congr 1
    funext p
    by_cases hp : p.1 = k <;> simp [hp]
  · rw [if_neg h, if_neg (fun hm => h ((any_fst_eq_iff m k).mpr hm))]
    simp [mapKeys]

theorem mapKeys_buildVers_aux_nodup (rs : List Release) :
    ∀ init : List (JStr × JStr), (mapKeys init).Nodup →
      (mapKeys (rs.foldl (fun m r => mapSet m r.version r.date) init)).Nodup := by
  induction rs with
  | nil => intro init h; exact h
  | cons r rs ih =>
    intro init h
    apply ih
    rw [mapKeys_mapSet]
    split
    · exact h
    · next hmem => simpa [List.nodup_append] using ⟨h, hmem⟩

theorem mapKeys_buildVers_nodup (rs : List Release) : (mapKeys (buildVers rs)).Nodup :=
  mapKeys_buildVers_aux_nodup rs [] (by simp [mapKeys])

theorem exists_missing {l₁ l₂ : List JStr} (h₁ : l₁.Nodup) (_h₂ : l₂.Nodup)
    (hlen : l₁.length = l₂.length) {v : JStr} (hv : v ∈ l₂) (hv' : v ∉ l₁) :
    ∃ w ∈ l₁, w ∉ l₂ := by
  by_contra h
  push_neg at h
  have hsub : l₁ ⊆ l₂.erase v := fun x hx => by
    have hxv : x ≠ v := fun hq => hv' (hq ▸ hx)
    exact (List.mem_erase_of_ne hxv).mpr (h x hx)
  have hle := (h₁.subperm hsub).length_le
  rw [List.length_erase_of_mem hv] at hle
  have hpos : 0 < l₂.length := List.length_pos.mpr (List.ne_nil_of_mem hv)
  omega

theorem diffVersions_modified (older newer : Snapshot) :
    (diffVersions older newer).modified
      = (buildVers newer.releases).filterMap (fun p =>
          if (buildVers older.releases).any (fun q => q.1 = p.1) then none
          else
            if (mapKeys (buildVers older.releases)).length
                  = (mapKeys (buildVers newer.releases)).length ∧
                (mapKeys (buildVers older.releases)).length > 0 then
              match (mapKeys (buildVers older.releases)).find?
                  (fun v => ¬ (buildVers newer.releases).any (fun q => q.1 = v)) with
              | some oldV =>
                if oldV ≠ [] then some ⟨"Version".data, oldV, p.1⟩ else none
              | none => none
            else none) := rfl

/-- **C5 (amended).** Rename inference: for a version `v` in the newer
snapshot's version set but not in the older's, if the two sets of
distinct version strings have equal (necessarily nonzero) cardinality,
the code looks up `w`, the FIRST version present only in the older set
(in insertion order); the `if (oldV)` truthiness guard then decides the
push: when `w` is nonempty a modified entry
`\x7brelease: "Version", oldVersion: w, newVersion: v\x7d` is reported,
and when `w` is the empty string — which is falsy in JavaScript — no
modified entry with `newVersion = v` is reported.  If the cardinalities
differ or either side is empty, no modified entry with `newVersion = v`
is reported. -/
theorem diff_rename_inference (older newer : Snapshot) (v : JStr)
    (hvNew : v ∈ mapKeys (buildVers newer.releases))
    (hvOld : v ∉ mapKeys (buildVers older.releases)) :
    ((mapKeys (buildVers older.releases)).length
        = (mapKeys (buildVers newer.releases)).length →
      ∃ w, (mapKeys (buildVers older.releases)).find?
            (fun x => ¬ (buildVers newer.releases).any (fun q => q.1 = x)) = some w ∧
        w ∈ mapKeys (buildVers older.releases) ∧
        w ∉ mapKeys (buildVers newer.releases) ∧
        (w ≠ [] →
          (⟨"Version".data, w, v⟩ : ModEntry) ∈ (diffVersions older newer).modified) ∧
        (w = [] →
          ∀ e ∈ (diffVersions older newer).modified, e.newVersion ≠ v)) ∧
    (((mapKeys (buildVers older.releases)).length
          ≠ (mapKeys (buildVers newer.releases)).length ∨
        mapKeys (buildVers older.releases) = [] ∨
        mapKeys (buildVers newer.releases) = []) →
      ∀ e ∈ (diffVersions older newer).modified, e.newVersion ≠ v) := by
  constructor
  · intro hlen
    obtain ⟨w, hw, hwn⟩ := exists_missing (mapKeys_buildVers_nodup older.releases)
      (mapKeys_buildVers_nodup newer.releases) hlen hvNew hvOld
    have hfind : ((mapKeys (buildVers older.releases)).find?
        (fun x => ¬ (buildVers newer.releases).any (fun q => q.1 = x))).isSome := by
      rw [List.find?_isSome]
      have hpred : ¬ ((buildVers newer.releases).any (fun q => q.1 = w) = true) :=
        fun hm => hwn ((any_fst_eq_iff _ _).mp hm)
      exact ⟨w, hw, by simp only [decide_eq_true_eq]; exact hpred⟩
    obtain ⟨w₀, hw₀⟩ := Option.isSome_iff_exists.mp hfind
    have hw₀mem : w₀ ∈ mapKeys (buildVers older.releases) := List.mem_of_find?_eq_some hw₀
    have hw₀not : w₀ ∉ mapKeys (buildVers newer.releases) := by
      have := List.find?_some hw₀
      simp only [decide_eq_true_eq] at this
      exact fun hm => this ((any_fst_eq_iff _ _).mpr hm)
    refine ⟨w₀, hw₀, hw₀mem, hw₀not, ?_, ?_⟩
    · intro hne
      rw [diffVersions_modified]
      apply List.mem_filterMap.mpr
      obtain ⟨p, hp, hp1⟩ := List.mem_map.mp hvNew
      refine ⟨p, hp, ?_⟩
      rw [if_neg, if_pos, hw₀, hp1]
      · simp [hne]
      · exact ⟨hlen, by
          have : v ∈ mapKeys (buildVers newer.releases) := hvNew
          have hnil : mapKeys (buildVers newer.releases) ≠ [] := List.ne_nil_of_mem this
          have := List.length_pos.mpr hnil
          omega⟩
      · rw [hp1]
        simp only [Bool.not_eq_true]
        rw [Bool.eq_false_iff]
        exact fun hm => hvOld ((any_fst_eq_iff _ _).mp hm)
    · intro hw0 e he hev
      rw [diffVersions_modified] at he
      obtain ⟨p, hp, hpe⟩ := List.mem_filterMap.mp he
      split at hpe
      · exact absurd hpe (by simp)
      · split at hpe
        · rw [hw₀, hw0] at hpe
          simp at hpe
        · exact absurd hpe (by simp)
  · intro hdisj e he
    rw [diffVersions_modified] at he
    obtain ⟨p, hp, hpe⟩ := List.mem_filterMap.mp he
    intro _
    split at hpe
    · exact absurd hpe (by simp)
    · split at hpe
      · next hcond =>
        rcases hdisj with hne | hold | hnew
        · exact hne hcond.1
        · rw [hold] at hcond
          simp at hcond
        · have : buildVers newer.releases = [] := by
            have := congrArg List.length hnew
            simpa [mapKeys] using List.eq_nil_of_length_eq_zero (by simpa [mapKeys] using this)
          rw [this] at hp
          exact absurd hp (List.not_mem_nil p)
      · exact absurd hpe (by simp)

/-- **C5 witness.** With one release `1.0.0` in the older snapshot and
one release `2.0.0` in the newer, the found older-only version `1.0.0`
is nonempty, so the equal-cardinality branch reports the rename. -/
theorem diff_rename_inference_witness :
    (⟨"Version".data, "1.0.0".data, "2.0.0".data⟩ : ModEntry) ∈
      (diffVersions
        ⟨"o".data, "old".data, [⟨"1.0.0".data, "d1".data, []⟩], "t0".data⟩
        ⟨"n".data, "new".data, [⟨"2.0.0".data, "d2".data, []⟩], "t1".data⟩).modified := by
  obtain ⟨w, hw, _, _, hmem, _⟩ :=
    (diff_rename_inference
        ⟨"o".data, "old".data, [⟨"1.0.0".data, "d1".data, []⟩], "t0".data⟩
        ⟨"n".data, "new".data, [⟨"2.0.0".data, "d2".data, []⟩], "t1".data⟩
        "2.0.0".data (by decide) (by decide)).1 (by decide)
  have hfind : (mapKeys (buildVers
        ([⟨"1.0.0".data, "d1".data, []⟩] : List Release))).find?
      (fun x => ¬ (buildVers ([⟨"2.0.0".data, "d2".data, []⟩] : List Release)).any
        (fun q => q.1 = x)) = some "1.0.0".data := by decide
  rw [hw] at hfind
  obtain rfl : w = "1.0.0".data := Option.some_injective _ hfind
  exact hmem (by decide)

/-- **C5 counterexample.** The `if (oldV)` truthiness guard of the source
is observable: with the older snapshot holding the single version `""`
and the newer the single version `2.0.0`, the cardinalities are equal and
nonzero and `2.0.0` is new, yet the found older-only version is the empty
string, which is falsy, so the code pushes nothing and `modified` is
empty — against the original claim, which promised a rename report. -/
theorem diff_rename_empty_version_skipped :
    (mapKeys (buildVers ([⟨[], "d1".data, []⟩] : List Release))).length
        = (mapKeys (buildVers ([⟨"2.0.0".data, "d2".data, []⟩] : List Release))).length ∧
      "2.0.0".data ∈ mapKeys (buildVers ([⟨"2.0.0".data, "d2".data, []⟩] : List Release)) ∧
      "2.0.0".data ∉ mapKeys (buildVers ([⟨[], "d1".data, []⟩] : List Release)) ∧
      (diffVersions
        ⟨"o".data, "old".data, [⟨[], "d1".data, []⟩], "t0".data⟩
        ⟨"n".data, "new".data, [⟨"2.0.0".data, "d2".data, []⟩], "t1".data⟩).modified = [] := by
  decide

/-! ## The Markdown renderer (`generateMarkdown`, src/lib/types.ts) -/

/-- The per-category bucket built by the renderers' regrouping loop: the
source pushes each change, in input order, onto the bucket of its
category, so bucket `t` is the in-order sublist of changes whose type is
`t`. -/
def grouped (changes : List ChangeItem) (t : ChangeType) : List ChangeItem :=
  changes.filter (fun c => c.type = t)

/-- The Markdown block emitted for one release by `generateMarkdown`'s
outer loop: the `## [version] - date` heading, then one `### Label`
block per non-empty category bucket in taxonomy order. -/
def mdReleaseBlock (r : Release) : JStr :=
  "## [".data ++ r.version ++ "] - ".data ++ r.date ++ "\n\n".data ++
    (taxonomy.map (fun t =>
      let items := grouped r.changes t
      if items.length > 0 then
        "### ".data ++ t.label ++ "\n\n".data ++
          (items.map (fun i => "- ".data ++ i.description ++ "\n".data)).flatten ++
          "\n".data
      else [])).flatten

/-- `generateMarkdown(releases)` (src/lib/types.ts): fixed title block,
then one block per release in order. -/
def generateMarkdown (releases : List Release) : JStr :=
  "# Changelog\n\nAll notable changes to this project will be documented in this file.\n\n".data
    ++ (releases.map mdReleaseBlock).flatten

/-- Split a string into its `\n`-separated lines (the line view used to
state heading properties of the rendered Markdown). -/
def linesOf : JStr → List JStr
  | [] => [[]]
  | c :: rest =>
    if c = '\n' then [] :: linesOf rest
    else
      match linesOf rest with
      | l :: ls => (c :: l) :: ls
      | [] => [[c]]

/-- Concatenation of the given lines, each terminated by a newline. -/
def joinLines (L : List JStr) : JStr := (L.map (fun l => l ++ ['\n'])).flatten

theorem linesOf_ne_nil (s : JStr) : linesOf s ≠ [] := by
  cases s with
  | nil => simp [linesOf]
  | cons c rest =>
    unfold linesOf
    split
    · simp
    · split <;> simp

theorem linesOf_append (a : JStr) (ha : '\n' ∉ a) (b : JStr) :
    ∀ l ls, linesOf b = l :: ls → linesOf (a ++ b) = (a ++ l) :: ls := by
  induction a with
  | nil => intro l ls h; simpa using h
  | cons c a ih =>
    intro l ls h
    have hc : c ≠ '\n' := fun hq => ha (hq ▸ List.mem_cons_self c a)
    have ha' : '\n' ∉ a := fun hq => ha (List.mem_cons_of_mem c hq)
    rw [List.cons_append]
    unfold linesOf
    rw [if_neg hc, ih ha' l ls h]
    rfl

theorem linesOf_cons_nl (r : JStr) : linesOf ('\n' :: r) = [] :: linesOf r := by
  simp [linesOf]

theorem linesOf_joinLines (L : List JStr) (h : ∀ l ∈ L, '\n' ∉ l) :
    linesOf (joinLines L) = L ++ [[]] := by
  induction L with
  | nil => simp [joinLines, linesOf]
  | cons l L ih =>
    have hl : '\n' ∉ l := h l (List.mem_cons_self l L)
    have hL : ∀ x ∈ L, '\n' ∉ x := fun x hx => h x (List.mem_cons_of_mem l hx)
    have hjoin : joinLines (l :: L) = l ++ '\n' :: joinLines L := by
      simp [joinLines]
    rw [hjoin]
    have hrec : linesOf ('\n' :: joinLines L) = [] :: (L ++ [[]]) := by
      rw [linesOf_cons_nl, ih hL]
    rw [linesOf_append l hl ('\n' :: joinLines L) [] (L ++ [[]]) hrec]
    simp

/-- The lines emitted for one category bucket of a release. -/
def mdCategoryLines (r : Release) (t : ChangeType) : List JStr :=
  let items := grouped r.changes t
  if items.length > 0 then
    ("### ".data ++ t.label) :: [] :: items.map (fun i => "- ".data ++ i.description) ++ [[]]
  else []

/-- The full line list of `generateMarkdown [r]` (every emitted piece of
the output ends in a newline, so the output is exactly these lines each
`\n`-terminated). -/
def mdLineList (r : Release) : List JStr :=
  ["# Changelog".data, [],
   "All notable changes to this project will be documented in this file.".data, [],
   "## [".data ++ r.version ++ "] - ".data ++ r.date, []] ++
  (taxonomy.map (mdCategoryLines r)).flatten

theorem joinLines_append (A B : List JStr) :
    joinLines (A ++ B) = joinLines A ++ joinLines B := by
  simp [joinLines]

theorem joinLines_flatten (Ls : List (List JStr)) :
    joinLines Ls.flatten = (Ls.map joinLines).flatten := by
  induction Ls with
  | nil => simp [joinLines]
  | cons l ls ih => simp [joinLines_append, ih]

theorem generateMarkdown_single (r : Release) :
    generateMarkdown [r] = joinLines (mdLineList r) := by
  have hcat : ∀ t : ChangeType,
      (let items := grouped r.changes t
        if items.length > 0 then
          "### ".data ++ t.label ++ "\n\n".data ++
            (items.map (fun i => "- ".data ++ i.description ++ "\n".data)).flatten ++
            "\n".data
        else []) = joinLines (mdCategoryLines r t) := by
    intro t
    simp only [mdCategoryLines]
    by_cases h : (grouped r.changes t).length > 0
    · rw [if_pos h, if_pos h]
      have h1 : "\n\n".data = '\n' :: '\n' :: [] := rfl
      have h2 : "\n".data = ['\n'] := rfl
      simp [joinLines, List.map_map, List.append_assoc, h1, h2, Function.comp_def]
    · rw [if_neg h, if_neg h]
      simp [joinLines]
  have hhead :
      joinLines ["# Changelog".data, [],
        "All notable changes to this project will be documented in this file.".data, []]
      = "# Changelog\n\nAll notable changes to this project will be documented in this file.\n\n".data := by
    rfl
  have hrel :
      joinLines ["## [".data ++ r.version ++ "] - ".data ++ r.date, []]
      = "## [".data ++ r.version ++ "] - ".data ++ r.date ++ "\n\n".data := by
    have h1 : "\n\n".data = '\n' :: '\n' :: [] := rfl
    simp [joinLines, h1, List.append_assoc]
  have hblock : mdReleaseBlock r
      = joinLines ["## [".data ++ r.version ++ "] - ".data ++ r.date, []]
        ++ (taxonomy.map (fun t => joinLines (mdCategoryLines r t))).flatten := by
    unfold mdReleaseBlock
    rw [hrel, List.map_congr_left (fun t _ => hcat t)]
  have hLHS : generateMarkdown [r]
      = "# Changelog\n\nAll notable changes to this project will be documented in this file.\n\n".data
        ++ mdReleaseBlock r := by
    simp [generateMarkdown]
  have hsplit :
      joinLines (["# Changelog".data, [],
        "All notable changes to this project will be documented in this file.".data, [],
        "## [".data ++ r.version ++ "] - ".data ++ r.date, []])
      = joinLines ["# Changelog".data, [],
          "All notable changes to this project will be documented in this file.".data, []]
        ++ joinLines ["## [".data ++ r.version ++ "] - ".data ++ r.date, []] := by
    rw [show (["# Changelog".data, [],
        "All notable changes to this project will be documented in this file.".data, [],
        "## [".data ++ r.version ++ "] - ".data ++ r.date, []] : List JStr)
      = ["# Changelog".data, [],
          "All notable changes to this project will be documented in this file.".data, []]
        ++ ["## [".data ++ r.version ++ "] - ".data ++ r.date, []] from rfl]
    exact joinLines_append _ _
  have hR : joinLines (mdLineList r)
      = "# Changelog\n\nAll notable changes to this project will be documented in this file.\n\n".data
        ++ (joinLines ["## [".data ++ r.version ++ "] - ".data ++ r.date, []]
            ++ (taxonomy.map (fun t => joinLines (mdCategoryLines r t))).flatten) := by
    unfold mdLineList
    rw [joinLines_append, hsplit, hhead, joinLines_flatten, List.map_map]
    simp [List.append_assoc, Function.comp_def]
  rw [hLHS, hblock, hR, List.append_assoc]

theorem filter_flatten_map {α β : Type} (p : β → Bool) (f : α → List β) (l : List α) :
    ((l.map f).flatten.filter p) = (l.map (fun a => (f a).filter p)).flatten := by
  induction l with
  | nil => rfl
  | cons a l ih => simp [List.filter_append, ih]

theorem flatten_ite_singleton {α β : Type} (l : List α) (p : α → Bool) (f : α → β) :
    (l.map (fun a => if p a then [f a] else [])).flatten = (l.filter p).map f := by
  induction l with
  | nil => rfl
  | cons a l ih => by_cases h : p a <;> simp [h, ih]

theorem isPrefixOf_self_append (p s : JStr) : p.isPrefixOf (p ++ s) = true :=
  List.isPrefixOf_iff_prefix.mpr (List.prefix_append p s)

theorem grouped_pos_iff (r : Release) (t : ChangeType) :
    (grouped r.changes t).length > 0 ↔ r.changes.any (fun c => c.type = t) = true := by
  unfold grouped
  constructor
  · intro h
    obtain ⟨c, hc⟩ := List.exists_mem_of_ne_nil _ (List.length_pos.mp h)
    obtain ⟨hcm, hct⟩ := List.mem_filter.mp hc
    exact List.any_eq_true.mpr ⟨c, hcm, hct⟩
  · intro h
    obtain ⟨c, hcm, hct⟩ := List.any_eq_true.mp h
    exact List.length_pos_of_mem (List.mem_filter.mpr ⟨hcm, hct⟩)

theorem filter_heading_mdCategoryLines (r : Release) (t : ChangeType) :
    (mdCategoryLines r t).filter (fun l => "### ".data.isPrefixOf l)
      = if r.changes.any (fun c => c.type = t) then ["### ".data ++ t.label] else [] := by
  unfold mdCategoryLines
  by_cases h : (grouped r.changes t).length > 0
  · rw [if_pos h, if_pos ((grouped_pos_iff r t).mp h)]
    have hhd : ("### ".data.isPrefixOf ("### ".data ++ t.label)) = true :=
      isPrefixOf_self_append _ _
    have hdesc : ((grouped r.changes t).map
        (fun i => "- ".data ++ i.description)).filter (fun l => "### ".data.isPrefixOf l) = [] := by
      rw [List.filter_eq_nil_iff]
      intro l hl
      obtain ⟨i, _, rfl⟩ := List.mem_map.mp hl
      simp [List.isPrefixOf]
    simp [List.filter_cons, List.filter_append, hhd, hdesc, List.isPrefixOf]
  · rw [if_neg h, if_neg (fun hc => h ((grouped_pos_iff r t).mpr hc))]
    rfl

theorem filter_dash_mdCategoryLines (r : Release) (t : ChangeType) :
    (mdCategoryLines r t).filter (fun l => "- ".data.isPrefixOf l)
      = (grouped r.changes t).map (fun c => "- ".data ++ c.description) := by
  unfold mdCategoryLines
  by_cases h : (grouped r.changes t).length > 0
  · rw [if_pos h]
    have hhd : ("- ".data.isPrefixOf ("### ".data ++ t.label)) = false := rfl
    have hdesc : ((grouped r.changes t).map
        (fun i => "- ".data ++ i.description)).filter (fun l => "- ".data.isPrefixOf l)
        = (grouped r.changes t).map (fun c => "- ".data ++ c.description) := by
      rw [List.filter_eq_self]
      intro l hl
      obtain ⟨i, _, rfl⟩ := List.mem_map.mp hl
      exact isPrefixOf_self_append _ _
    simp [List.filter_cons, List.filter_append, hhd, hdesc, List.isPrefixOf]
  · rw [if_neg h]
    have : grouped r.changes t = [] := by
      cases hg : grouped r.changes t with
      | nil => rfl
      | cons a l => rw [hg] at h; simp at h
    rw [this]
    rfl


theorem label_no_newline (t : ChangeType) : '\n' ∉ t.label := by
  cases t <;> decide

theorem mdLineList_no_newline (r : Release)
    (hv : '\n' ∉ r.version) (hd : '\n' ∉ r.date)
    (hc : ∀ c ∈ r.changes, '\n' ∉ c.description) :
    ∀ l ∈ mdLineList r, '\n' ∉ l := by
  intro l hl
  unfold mdLineList at hl
  rw [List.mem_append] at hl
  rcases hl with hl | hl
  · simp only [List.mem_cons, List.not_mem_nil, or_false] at hl
    rcases hl with rfl | rfl | rfl | rfl | rfl | rfl
    · decide
    · decide
    · decide
    · decide
    · intro hmem
      rcases List.mem_append.mp hmem with h1 | h1
      · rcases List.mem_append.mp h1 with h2 | h2
        · rcases List.mem_append.mp h2 with h3 | h3
          · exact absurd h3 (by decide)
          · exact hv h3
        · exact absurd h2 (by decide)
      · exact hd h1
    · decide
  · obtain ⟨block, hblock, hlb⟩ := List.mem_flatten.mp hl
    obtain ⟨t, _, rfl⟩ := List.mem_map.mp hblock
    simp only [mdCategoryLines] at hlb
    by_cases hpos : (grouped r.changes t).length > 0
    · rw [if_pos hpos] at hlb
      simp only [List.mem_cons, List.mem_append, List.not_mem_nil, or_false] at hlb
      rcases hlb with (h1 | h1 | h1) | h1
      · intro hmem
        rw [h1] at hmem
        rcases List.mem_append.mp hmem with hx | hx
        · exact absurd hx (by decide)
        · exact label_no_newline t hx
      · rw [h1]; decide
      · obtain ⟨i, hi, hi2⟩ := List.mem_map.mp h1
        intro hmem
        rw [← hi2] at hmem
        rcases List.mem_append.mp hmem with hx | hx
        · exact absurd hx (by decide)
        · exact hc i (List.mem_of_mem_filter hi) hx
      · rw [h1]; decide
    · rw [if_neg hpos] at hlb
      exact absurd hlb (List.not_mem_nil l)

/-- **C2 (amended).** For every release `r` whose version, date and
change descriptions contain no newline character, the Markdown rendering
of `[r]` contains exactly one `###` heading line per distinct category
present in `r.changes`, these heading lines appear in the fixed taxonomy
order regardless of the order of entries, no heading is emitted for an
absent category, and the `- description` lines are exactly the changes
bucketed by category in taxonomy order, preserving insertion order
within each category.  (The no-newline proviso is forced: a newline
embedded in a description splits the rendered line, and a segment such
as `### Security` then counts as an extra heading line.) -/
theorem markdown_headings (r : Release)
    (hv : '\n' ∉ r.version) (hd : '\n' ∉ r.date)
    (hc : ∀ c ∈ r.changes, '\n' ∉ c.description) :
    (linesOf (generateMarkdown [r])).filter (fun l => "### ".data.isPrefixOf l)
      = (taxonomy.filter (fun t => r.changes.any (fun c => c.type = t))).map
          (fun t => "### ".data ++ t.label) ∧
    (linesOf (generateMarkdown [r])).filter (fun l => "- ".data.isPrefixOf l)
      = (taxonomy.map (fun t =>
          (grouped r.changes t).map (fun c => "- ".data ++ c.description))).flatten := by
  rw [generateMarkdown_single,
    linesOf_joinLines (mdLineList r) (mdLineList_no_newline r hv hd hc)]
  constructor
  · rw [List.filter_append]
    unfold mdLineList
    rw [List.filter_append, filter_flatten_map, List.map_congr_left
      (fun t _ => filter_heading_mdCategoryLines r t), flatten_ite_singleton]
    have h6 : (["# Changelog".data, [],
        "All notable changes to this project will be documented in this file.".data, [],
        "## [".data ++ r.version ++ "] - ".data ++ r.date, []] : List JStr).filter
          (fun l => "### ".data.isPrefixOf l) = [] := by
      rw [List.filter_eq_nil_iff]
      intro l hl
      simp only [List.mem_cons, List.not_mem_nil, or_false] at hl
      rcases hl with rfl | rfl | rfl | rfl | rfl | rfl
      · decide
      · decide
      · decide
      · decide
      · simp [List.isPrefixOf]
      · decide
    rw [h6]
    simp [List.isPrefixOf]
  · rw [List.filter_append]
    unfold mdLineList
    rw [List.filter_append, filter_flatten_map, List.map_congr_left
      (fun t _ => filter_dash_mdCategoryLines r t)]
    have h6 : (["# Changelog".data, [],
        "All notable changes to this project will be documented in this file.".data, [],
        "## [".data ++ r.version ++ "] - ".data ++ r.date, []] : List JStr).filter
          (fun l => "- ".data.isPrefixOf l) = [] := by
      rw [List.filter_eq_nil_iff]
      intro l hl
      simp only [List.mem_cons, List.not_mem_nil, or_false] at hl
      rcases hl with rfl | rfl | rfl | rfl | rfl | rfl
      · decide
      · decide
      · decide
      · decide
      · simp [List.isPrefixOf]
      · decide
    rw [h6]
    simp [List.isPrefixOf]

/-- **C2 witness.** For a concrete release with a `fixed` and an `added`
change (in that insertion order), the `###` heading lines of the
rendered Markdown are exactly those of the present categories in
taxonomy order. -/
theorem markdown_headings_witness :
    (linesOf (generateMarkdown [⟨"1.0.0".data, "2024-03-01".data,
        [⟨"a".data, ChangeType.fixed, "Fixed login crash".data⟩,
         ⟨"b".data, ChangeType.added, "Support for dark mode".data⟩]⟩])).filter
      (fun l => "### ".data.isPrefixOf l)
      = (taxonomy.filter (fun t =>
          (⟨"1.0.0".data, "2024-03-01".data,
            [⟨"a".data, ChangeType.fixed, "Fixed login crash".data⟩,
             ⟨"b".data, ChangeType.added, "Support for dark mode".data⟩]⟩ : Release).changes.any
            (fun c => c.type = t))).map (fun t => "### ".data ++ t.label) :=
  (markdown_headings
    ⟨"1.0.0".data, "2024-03-01".data,
      [⟨"a".data, ChangeType.fixed, "Fixed login crash".data⟩,
       ⟨"b".data, ChangeType.added, "Support for dark mode".data⟩]⟩
    (by decide) (by decide) (by decide)).1

/-- **C2 counterexample.** A description containing a newline followed
by `### Security` injects an extra heading line: the release has exactly
one distinct category (`added`), yet the rendered Markdown contains two
lines starting with `### `, so it does not contain exactly one `###`
heading per distinct category. -/
theorem markdown_heading_injection :
    (⟨"1.0.0".data, "2024-01-01".data,
        [⟨"i".data, ChangeType.added, "x\n### Security".data⟩]⟩ : Release).changes.map
      (fun c => c.type) = [ChangeType.added] ∧
    ((linesOf (generateMarkdown
        [⟨"1.0.0".data, "2024-01-01".data,
          [⟨"i".data, ChangeType.added, "x\n### Security".data⟩]⟩])).filter
      (fun l => "### ".data.isPrefixOf l)).length = 2 := by
  decide

/-! ## The HTML renderer (`generateHTML`, src/lib/types.ts)

Braces of the CSS template text are written with the `\x7b`/`\x7d`
escapes; the text is otherwise the source's template literal verbatim. -/

/-- The fixed document head and opening of `generateHTML`'s template. -/
def htmlHeader : JStr :=
  "<!DOCTYPE html>\n<html lang=\"en\">\n<head>\n  <meta charset=\"UTF-8\">\n  <meta name=\"viewport\" content=\"width=device-width, initial-scale=1.0\">\n  <title>Changelog</title>\n  <style>\n    * \x7b box-sizing: border-box; margin: 0; padding: 0; \x7d\n    body \x7b font-family: -apple-system, BlinkMacSystemFont, \x27Segoe UI\x27, Roboto, sans-serif; background: #0a0a0a; color: #e4e4e7; padding: 2rem; line-height: 1.6; \x7d\n    .container \x7b max-width: 800px; margin: 0 auto; \x7d\n    h1 \x7b font-size: 2.5rem; margin-bottom: 0.5rem; background: linear-gradient(135deg, #10b981, #3b82f6); -webkit-background-clip: text; -webkit-text-fill-color: transparent; \x7d\n    .subtitle \x7b color: #71717a; margin-bottom: 2rem; \x7d\n    .release \x7b background: #18181b; border-radius: 1rem; padding: 1.5rem; margin-bottom: 1.5rem; border: 1px solid #27272a; \x7d\n    .release-header \x7b display: flex; align-items: center; gap: 1rem; margin-bottom: 1rem; \x7d\n    .version \x7b font-size: 1.5rem; font-weight: 700; color: #10b981; \x7d\n    .date \x7b color: #71717a; font-size: 0.875rem; \x7d\n    .section \x7b margin-bottom: 1rem; \x7d\n    .section-title \x7b font-size: 0.875rem; font-weight: 600; margin-bottom: 0.5rem; padding: 0.25rem 0.75rem; border-radius: 0.5rem; display: inline-block; \x7d\n    .changes \x7b list-style: none; padding-left: 1rem; \x7d\n    .changes li \x7b padding: 0.25rem 0; color: #a1a1aa; \x7d\n    .changes li::before \x7b content: \"→\"; margin-right: 0.5rem; color: #52525b; \x7d\n  </style>\n</head>\n<body>\n  <div class=\"container\">\n    <h1>📋 Changelog</h1>\n    <p class=\"subtitle\">All notable changes to this project will be documented here.</p>\n".data

/-- The release card opening emitted per release (version and date
interpolated verbatim into the template literal). -/
def htmlReleaseOpen (r : Release) : JStr :=
  "    <div class=\"release\">\n      <div class=\"release-header\">\n        ".data
    ++ ("<span class=\"version\">v".data ++ r.version ++ "</span>".data)
    ++ "\n        ".data
    ++ ("<span class=\"date\">".data ++ r.date ++ "</span>".data)
    ++ "\n      </div>\n".data

/-- The section emitted for one non-empty category bucket, with one
`<li>` per change, descriptions interpolated verbatim. -/
def htmlSection (changes : List ChangeItem) (t : ChangeType) : JStr :=
  let items := grouped changes t
  if items.length > 0 then
    "      <div class=\"section\">\n        <span class=\"section-title\" style=\"background: ".data
      ++ t.htmlColor ++ "20; color: ".data ++ t.htmlColor ++ ";\">".data
      ++ t.emoji ++ " ".data ++ t.label
      ++ "</span>\n        <ul class=\"changes\">\n".data
      ++ (items.map (fun i =>
            "          ".data ++ ("<li>".data ++ i.description ++ "</li>".data)
              ++ "\n".data)).flatten
      ++ "        </ul>\n      </div>\n".data
  else []

/-- The full card of one release. -/
def htmlReleaseBlock (r : Release) : JStr :=
  htmlReleaseOpen r ++ (taxonomy.map (htmlSection r.changes)).flatten
    ++ "    </div>\n".data

/-- `generateHTML(releases)` (src/lib/types.ts). -/
def generateHTML (releases : List Release) : JStr :=
  htmlHeader ++ (releases.map htmlReleaseBlock).flatten
    ++ "  </div>\n</body>\n</html>".data

theorem mem_taxonomy (t : ChangeType) : t ∈ taxonomy := by
  cases t <;> decide

theorem infix_of_factor {a x b s : JStr} (h : a ++ x ++ b = s) : x <:+: s :=
  ⟨a, b, h⟩

theorem infix_extend_left {x m : JStr} (pre : JStr) (h : x <:+: m) :
    x <:+: pre ++ m := by
  obtain ⟨s, t, rfl⟩ := h
  exact ⟨pre ++ s, t, by simp [List.append_assoc]⟩

theorem infix_extend_right {x m : JStr} (post : JStr) (h : x <:+: m) :
    x <:+: m ++ post := by
  obtain ⟨s, t, rfl⟩ := h
  exact ⟨s, t ++ post, by simp [List.append_assoc]⟩

theorem infix_of_mem_map_flatten {α : Type} {x : JStr} {f : α → JStr} {a : α} {l : List α}
    (ha : a ∈ l) (h : x <:+: f a) : x <:+: (l.map f).flatten :=
  h.trans (List.infix_of_mem_flatten (List.mem_map.mpr ⟨a, ha, rfl⟩))

/-- **C10.** The HTML renderer interpolates every change description,
version string, and date verbatim, with no HTML escaping: for every
release list, the full `<li>description</li>` element text, the
`<span class="version">vVERSION</span>` text and the
`<span class="date">DATE</span>` text occur as literal substrings of the
generated document for every release and change. -/
theorem html_interpolates_verbatim (rs : List Release) (r : Release) (hr : r ∈ rs) :
    ("<span class=\"version\">v".data ++ r.version ++ "</span>".data)
        <:+: generateHTML rs ∧
    ("<span class=\"date\">".data ++ r.date ++ "</span>".data)
        <:+: generateHTML rs ∧
    ∀ c ∈ r.changes,
      ("<li>".data ++ c.description ++ "</li>".data) <:+: generateHTML rs := by
  have lift : ∀ x : JStr, x <:+: htmlReleaseBlock r → x <:+: generateHTML rs := by
    intro x hx
    exact infix_extend_right _ (infix_extend_left htmlHeader
      (infix_of_mem_map_flatten hr hx))
  refine ⟨?_, ?_, ?_⟩
  · apply lift
    apply infix_extend_right
    apply infix_extend_right
    unfold htmlReleaseOpen
    refine ⟨"    <div class=\"release\">\n      <div class=\"release-header\">\n        ".data,
      "\n        ".data ++ ("<span class=\"date\">".data ++ r.date ++ "</span>".data)
        ++ "\n      </div>\n".data, ?_⟩
    simp [List.append_assoc]
  · apply lift
    apply infix_extend_right
    apply infix_extend_right
    unfold htmlReleaseOpen
    refine ⟨"    <div class=\"release\">\n      <div class=\"release-header\">\n        ".data
        ++ ("<span class=\"version\">v".data ++ r.version ++ "</span>".data)
        ++ "\n        ".data,
      "\n      </div>\n".data, ?_⟩
    simp [List.append_assoc]
  · intro c hc
    apply lift
    have hcg : c ∈ grouped r.changes c.type :=
      List.mem_filter.mpr ⟨hc, by simp⟩
    have hpos : (grouped r.changes c.type).length > 0 := List.length_pos_of_mem hcg
    have hsec : htmlSection r.changes c.type
        = "      <div class=\"section\">\n        <span class=\"section-title\" style=\"background: ".data
          ++ c.type.htmlColor ++ "20; color: ".data ++ c.type.htmlColor ++ ";\">".data
          ++ c.type.emoji ++ " ".data ++ c.type.label
          ++ "</span>\n        <ul class=\"changes\">\n".data
          ++ ((grouped r.changes c.type).map (fun i =>
                "          ".data ++ ("<li>".data ++ i.description ++ "</li>".data)
                  ++ "\n".data)).flatten
          ++ "        </ul>\n      </div>\n".data := by
      unfold htmlSection
      rw [if_pos hpos]
    have hin : ("<li>".data ++ c.description ++ "</li>".data)
        <:+: htmlSection r.changes c.type := by
      rw [hsec]
      refine infix_extend_right _ (infix_extend_left _ ?_)
      exact infix_of_mem_map_flatten hcg
        ⟨"          ".data, "\n".data, by simp [List.append_assoc]⟩
    unfold htmlReleaseBlock
    exact infix_extend_right _ (infix_extend_left _
      (infix_of_mem_map_flatten (mem_taxonomy c.type) hin))

/-- **C10 witness.** A concrete release list: the description containing
markup characters appears unescaped inside its `<li>` element. -/
theorem html_interpolates_verbatim_witness :
    ("<li>".data ++ "a <b> & c".data ++ "</li>".data) <:+:
      generateHTML [⟨"1.0.0".data, "2024-01-01".data,
        [⟨"i".data, ChangeType.added, "a <b> & c".data⟩]⟩] :=
  (html_interpolates_verbatim
      [⟨"1.0.0".data, "2024-01-01".data,
        [⟨"i".data, ChangeType.added, "a <b> & c".data⟩]⟩]
      ⟨"1.0.0".data, "2024-01-01".data,
        [⟨"i".data, ChangeType.added, "a <b> & c".data⟩]⟩
      (by decide)).2.2
    ⟨"i".data, ChangeType.added, "a <b> & c".data⟩ (by decide)

/-! ## The free-text parser (`parseChangelogText`, src/lib/types.ts)

The parser processes the input line by line (split on `\n`), trimming
each line and matching it against the version-header regexes, then the
section-header regexes, then the list-item regex.  The regexes are
translated into deterministic matchers; for each of them greedy matching
with no observable backtracking is equivalent to the JavaScript
backtracking semantics on the reachable inputs (the failure analyses are
noted at each definition).  `new Date()` (the default date) and
`generateId()` (fresh ids) are nondeterministic in the source and are
modelled as the parameters `today` and `ids`. -/

/-- JavaScript `\s` (also the character class removed by `trim()`):
space, tab, line terminators, and the Unicode space separators. -/
def isJsSpace (c : Char) : Bool :=
  let n := c.toNat
  n = 32 ∨ n = 9 ∨ n = 10 ∨ n = 11 ∨ n = 12 ∨ n = 13 ∨ n = 0xa0 ∨ n = 0x1680 ∨
    (0x2000 ≤ n ∧ n ≤ 0x200a) ∨ n = 0x2028 ∨ n = 0x2029 ∨ n = 0x202f ∨
    n = 0x205f ∨ n = 0x3000 ∨ n = 0xfeff

/-- JavaScript line terminators (not matched by `.`). -/
def isLineTerm (c : Char) : Bool :=
  let n := c.toNat
  n = 10 ∨ n = 13 ∨ n = 0x2028 ∨ n = 0x2029

/-- JavaScript `\d`. -/
def isDigitCh (c : Char) : Bool := 48 ≤ c.toNat ∧ c.toNat ≤ 57

/-- The dash alternatives `[-–—]` of the version-header patterns. -/
def isDashCh (c : Char) : Bool :=
  let n := c.toNat
  n = 45 ∨ n = 0x2013 ∨ n = 0x2014

/-- The bullet alternatives `[-*•]` of the list-item pattern. -/
def isBulletCh (c : Char) : Bool :=
  let n := c.toNat
  n = 45 ∨ n = 42 ∨ n = 0x2022

/-- `String.prototype.trim()`. -/
def jsTrim (s : JStr) : JStr :=
  ((s.dropWhile isJsSpace).reverse.dropWhile isJsSpace).reverse

/-- Greedy `\s*`. -/
def skipWs (s : JStr) : JStr := s.dropWhile isJsSpace

/-- ASCII lowercasing (`toLowerCase`; the keywords compared against are
all ASCII, so only the ASCII behaviour is relevant). -/
def lowerAscii (c : Char) : Char :=
  if 65 ≤ c.toNat ∧ c.toNat ≤ 90 then Char.ofNat (c.toNat + 32) else c

/-- `toLowerCase` of a string. -/
def lowerStr (s : JStr) : JStr := s.map lowerAscii

/-- Case-insensitive literal match: `pat` (already lowercase) against
the front of `s`; returns the rest of `s` on success. -/
def matchCI : JStr → JStr → Option JStr
  | [], s => some s
  | _ :: _, [] => none
  | p :: ps, c :: cs => if lowerAscii c = p then matchCI ps cs else none

/-- `String.prototype.includes` (plain substring test). -/
def containsSub (p : JStr) : JStr → Bool
  | [] => p.isEmpty
  | c :: rest => p.isPrefixOf (c :: rest) || containsSub p rest

/-- The version-number group `(\d+\.\d+(?:\.\d+)?)` with greedy `\d+`
and a greedy optional third component, returning the captured text and
the rest.  (Greediness is deterministic here: a digit can never match
`\.`, and when the optional group fails the `.` it left behind is
absorbed by the tail's `(.+)?` exactly as the longer capture's tail is,
so no backtracking into the capture is ever observable.) -/
def matchVersionCore (s : JStr) : Option (JStr × JStr) :=
  let d1 := s.takeWhile isDigitCh
  let r1 := s.dropWhile isDigitCh
  if d1 = [] then none else
  match r1 with
  | '.' :: r2 =>
    let d2 := r2.takeWhile isDigitCh
    let r3 := r2.dropWhile isDigitCh
    if d2 = [] then none else
    match r3 with
    | '.' :: r4 =>
      let d3 := r4.takeWhile isDigitCh
      let r5 := r4.dropWhile isDigitCh
      if d3 = [] then some (d1 ++ '.' :: d2, '.' :: r4)
      else some (d1 ++ '.' :: d2 ++ '.' :: d3, r5)
    | _ => some (d1 ++ '.' :: d2, r3)
  | _ => none

/-- The tail `\s*[-–—]?\s*(.+)?$` of the version patterns: skips
whitespace and one optional dash and returns the remainder as the
captured group (`[]` when the group is absent — the source reads it as
`versionMatch[2] || ''`).  Because `.` matches no line terminator and
`$` only matches at the very end, a terminator left in the remainder
makes the whole pattern fail (`none`); no backtracking into the earlier
optional parts can avoid it. -/
def matchTailNoBracket (s : JStr) : Option JStr :=
  let s2 := skipWs s
  let s3 := match s2 with
    | c :: r => if isDashCh c then r else s2
    | [] => s2
  let s4 := skipWs s3
  if s4 = [] then some []
  else if s4.any isLineTerm then none
  else some s4

/-- The tail `\]?\s*[-–—]?\s*(.+)?$` of the first version pattern. -/
def matchTail (s : JStr) : Option JStr :=
  match s with
  | ']' :: r => matchTailNoBracket r
  | _ => matchTailNoBracket s

/-- Version pattern 1: `^##?\s*\[?v?(\d+\.\d+(?:\.\d+)?)\]?\s*[-–—]?\s*(.+)?$/i`. -/
def matchP1 (s : JStr) : Option (JStr × JStr) :=
  match s with
  | '#' :: s1 =>
    let s2 := match s1 with
      | '#' :: r => r
      | _ => s1
    let s3 := skipWs s2
    let s4 := match s3 with
      | '[' :: r => r
      | _ => s3
    let s5 := match s4 with
      | c :: r => if c = 'v' ∨ c = 'V' then r else s4
      | [] => s4
    match matchVersionCore s5 with
    | some (ver, rest) => (matchTail rest).map (fun g => (ver, g))
    | none => none
  | _ => none

/-- Version pattern 2: `^v?(\d+\.\d+(?:\.\d+)?)\s*[-–—]?\s*(.+)?$/i`. -/
def matchP2 (s : JStr) : Option (JStr × JStr) :=
  let s1 := match s with
    | c :: r => if c = 'v' ∨ c = 'V' then r else s
    | [] => s
  match matchVersionCore s1 with
  | some (ver, rest) => (matchTailNoBracket rest).map (fun g => (ver, g))
  | none => none

/-- Version pattern 3: `^version\s*:?\s*v?(\d+\.\d+(?:\.\d+)?)\s*[-–—]?\s*(.+)?$/i`. -/
def matchP3 (s : JStr) : Option (JStr × JStr) :=
  match matchCI "version".data s with
  | some r1 =>
    let r2 := skipWs r1
    let r3 := match r2 with
      | ':' :: r => r
      | _ => r2
    let r4 := skipWs r3
    let r5 := match r4 with
      | c :: r => if c = 'v' ∨ c = 'V' then r else r4
      | [] => r4
    match matchVersionCore r5 with
    | some (ver, rest) => (matchTailNoBracket rest).map (fun g => (ver, g))
    | none => none
  | none => none

/-- The version-pattern loop: try the three patterns in order, first
match wins. -/
def matchVersion (s : JStr) : Option (JStr × JStr) :=
  match matchP1 s with
  | some m => some m
  | none =>
    match matchP2 s with
    | some m => some m
    | none => matchP3 s

/-- The final `\d{1,2}` of the date pattern (greedy, unconstrained). -/
def lastDigits : JStr → Option JStr
  | x :: y :: _ =>
    if isDigitCh x then (if isDigitCh y then some [x, y] else some [x]) else none
  | [x] => if isDigitCh x then some [x] else none
  | [] => none

/-- The date group (four digits, a dash or slash separator, one or two
digits, a separator, one or two digits) anchored at the current position:
exactly four digits, a separator, one or two digits (two only when a
separator follows, else backtrack to one), a separator, one or two
digits (greedy). -/
def tryDate (s : JStr) : Option JStr :=
  match s with
  | a :: b :: c :: d :: s1 :: r1 =>
    if isDigitCh a ∧ isDigitCh b ∧ isDigitCh c ∧ isDigitCh d ∧ (s1 = '-' ∨ s1 = '/') then
      match r1 with
      | m1 :: m2 :: r2 =>
        if isDigitCh m1 then
          if isDigitCh m2 then
            match r2 with
            | s2 :: r3 =>
              if s2 = '-' ∨ s2 = '/' then
                (lastDigits r3).map (fun ds => [a, b, c, d, s1, m1, m2, s2] ++ ds)
              else none
            | [] => none
          else
            if m2 = '-' ∨ m2 = '/' then
              (lastDigits r2).map (fun ds => [a, b, c, d, s1, m1, m2] ++ ds)
            else none
        else none
      | _ => none
    else none
  | _ => none

/-- Leftmost match of the date pattern (`String.prototype.match` with an
unanchored regex scans positions left to right). -/
def findDate : JStr → Option JStr
  | [] => none
  | c :: rest =>
    match tryDate (c :: rest) with
    | some d => some d
    | none => findDate rest

/-- `.replace(/\//g, '-')`. -/
def slashToDash (s : JStr) : JStr := s.map (fun c => if c = '/' then '-' else c)

/-- The date assigned to a new release: the first date-like substring of
the rest of the header line, normalized, else the current date
(`today`). -/
def dateOf (today dateRest : JStr) : JStr :=
  match findDate dateRest with
  | some d => slashToDash d
  | none => today

/-- `^###?` of the section patterns: two or three `#` characters. -/
def sectionHashes (s : JStr) : Option JStr :=
  match s with
  | '#' :: '#' :: r =>
    match r with
    | '#' :: r2 => some r2
    | _ => some r
  | _ => none

/-- The section-header patterns, tried in source order with `test()`
(an unanchored-at-the-end prefix match after `^###?\s*`). -/
def sectionType (s : JStr) : Option ChangeType :=
  match sectionHashes s with
  | some r =>
    let low := lowerStr (skipWs r)
    if "added".data.isPrefixOf low || "new".data.isPrefixOf low ||
        "feature".data.isPrefixOf low then some .added
    else if "changed".data.isPrefixOf low || "update".data.isPrefixOf low ||
        "modified".data.isPrefixOf low then some .changed
    else if "fixed".data.isPrefixOf low ||
        ("bug".data.isPrefixOf low && "fix".data.isPrefixOf (skipWs (low.drop 3))) ||
        "fixes".data.isPrefixOf low then some .fixed
    else if "removed".data.isPrefixOf low || "deleted".data.isPrefixOf low then some .removed
    else if "security".data.isPrefixOf low then some .security
    else if "deprecated".data.isPrefixOf low then some .deprecated
    else none
  | none => none

/-- The list-item pattern `^[-*•]\s*(.+)$`: a bullet, whitespace, and a
nonempty terminator-free capture. -/
def listItem (s : JStr) : Option JStr :=
  match s with
  | c :: r =>
    if isBulletCh c then
      let r2 := skipWs r
      if r2 ≠ [] ∧ ¬ r2.any isLineTerm then some r2 else none
    else none
  | [] => none

/-- The keyword re-classification applied to every list item's
description (lowercased), overriding the active section category;
first match wins, in source order. -/
def detectType (currentType : ChangeType) (description : JStr) : ChangeType :=
  let lowerDesc := lowerStr description
  if "fix".data.isPrefixOf lowerDesc || "bug".data.isPrefixOf lowerDesc then .fixed
  else if "add".data.isPrefixOf lowerDesc || "new ".data.isPrefixOf lowerDesc then .added
  else if "remove".data.isPrefixOf lowerDesc || "delete".data.isPrefixOf lowerDesc then
    .removed
  else if "security".data.isPrefixOf lowerDesc ||
      containsSub "vulnerability".data lowerDesc || containsSub "cve".data lowerDesc then
    .security
  else if "deprecat".data.isPrefixOf lowerDesc then .deprecated
  else if "update".data.isPrefixOf lowerDesc || "change".data.isPrefixOf lowerDesc ||
      "improve".data.isPrefixOf lowerDesc then .changed
  else currentType

/-- The parser's cursor state: accumulated releases, the open release,
the active category, and the id counter. -/
structure ParseState where
  releases : List Release
  current : Option Release
  curType : ChangeType
  nextId : Nat

/-- Close the open release: emit it only when it has at least one
recorded change (`currentRelease.changes.length > 0`). -/
def closeCurrent (st : ParseState) : List Release :=
  match st.current with
  | some r => if r.changes.length > 0 then st.releases ++ [r] else st.releases
  | none => st.releases

/-- Processing of one trimmed, nonblank line: version header first, then
section header, then list item, anything else ignored. -/
def processTrimmed (today : JStr) (ids : Nat → JStr) (st : ParseState) (t : JStr) :
    ParseState :=
  match matchVersion t with
  | some (ver, dateRest) =>
    { releases := closeCurrent st,
      current := some ⟨ver, dateOf today dateRest, []⟩,
      curType := .added,
      nextId := st.nextId }
  | none =>
    match sectionType t with
    | some ty => { st with curType := ty }
    | none =>
      match listItem t with
      | some cap =>
        match st.current with
        | some r =>
          let description := jsTrim cap
          { st with
            current := some { r with changes := r.changes ++
              [⟨ids st.nextId, detectType st.curType description, description⟩] },
            nextId := st.nextId + 1 }
        | none => st
      | none => st

/-- Processing of one raw line: trim, skip if blank. -/
def processLine (today : JStr) (ids : Nat → JStr) (st : ParseState) (line : JStr) :
    ParseState :=
  let trimmed := jsTrim line
  if trimmed = [] then st else processTrimmed today ids st trimmed

/-- `parseChangelogText(text)`: fold the line processor over
`text.split('\n')` and close the last open release. -/
def parseChangelogText (today : JStr) (ids : Nat → JStr) (text : JStr) : List Release :=
  let st := (linesOf text).foldl (processLine today ids) ⟨[], none, ChangeType.added, 0⟩
  closeCurrent st

/-! ### The parser never emits a release with no changes -/

theorem closeCurrent_inv (st : ParseState) (h : ∀ r ∈ st.releases, r.changes ≠ []) :
    ∀ r ∈ closeCurrent st, r.changes ≠ [] := by
  intro r hr
  unfold closeCurrent at hr
  split at hr
  · next r' _ =>
    split at hr
    · next hlen =>
      rcases List.mem_append.mp hr with h1 | h1
      · exact h r h1
      · simp only [List.mem_singleton] at h1
        subst h1
        intro hnil
        rw [hnil] at hlen
        simp at hlen
    · exact h r hr
  · exact h r hr

theorem processLine_inv (today : JStr) (ids : Nat → JStr) (st : ParseState) (line : JStr)
    (h : ∀ r ∈ st.releases, r.changes ≠ []) :
    ∀ r ∈ (processLine today ids st line).releases, r.changes ≠ [] := by
  unfold processLine
  simp only []
  split
  · exact h
  · unfold processTrimmed
    split
    · exact closeCurrent_inv st h
    · split
      · exact h
      · split
        · split
          · exact h
          · exact h
        · exact h

/-- **C6.** For every input text (and any current date and id supply),
the parser never emits a release whose changes list is empty: a release
open when a new version header is matched, or still open at end of
input, is emitted only if it has at least one recorded change. -/
theorem parser_no_empty_release (today : JStr) (ids : Nat → JStr) (text : JStr) :
    ∀ r ∈ parseChangelogText today ids text, r.changes ≠ [] := by
  unfold parseChangelogText
  apply closeCurrent_inv
  have hfold : ∀ (lines : List JStr) (st : ParseState),
      (∀ r ∈ st.releases, r.changes ≠ []) →
      ∀ r ∈ (lines.foldl (processLine today ids) st).releases, r.changes ≠ [] := by
    intro lines
    induction lines with
    | nil => intro st h; exact h
    | cons l ls ih => intro st h; exact ih _ (processLine_inv today ids st l h)
  exact hfold _ _ (fun r hr => absurd hr (List.not_mem_nil r))

/-- **C6 witness.** A version header immediately followed by another
version header produces no release for the first header: the parse of
the two-header input emits the second release only, and the emitted
release has nonempty changes (by the theorem). -/
theorem parser_no_empty_release_witness :
    parseChangelogText "2024-01-01".data (fun _ => "id".data)
        "## 1.0.0\n## 2.0.0\n- Added x".data
      = [⟨"2.0.0".data, "2024-01-01".data,
          [⟨"id".data, ChangeType.added, "Added x".data⟩]⟩] ∧
    (⟨"2.0.0".data, "2024-01-01".data,
        [⟨"id".data, ChangeType.added, "Added x".data⟩]⟩ : Release).changes ≠ [] :=
  ⟨by decide,
    parser_no_empty_release "2024-01-01".data (fun _ => "id".data)
      "## 1.0.0\n## 2.0.0\n- Added x".data
      ⟨"2.0.0".data, "2024-01-01".data,
        [⟨"id".data, ChangeType.added, "Added x".data⟩]⟩
      (by decide)⟩

/-- The claim's keyword rules, written as the spec suggests: an ordered
list of predicate/category pairs over the lowercased description,
evaluated in fixed order with first match winning.  (Second definition
for the refinement check against `detectType`, which is translated from
the source's if/else chain.) -/
def specKeywordRules : List ((JStr → Bool) × ChangeType) :=
  [(fun d => "fix".data.isPrefixOf d || "bug".data.isPrefixOf d, .fixed),
   (fun d => "add".data.isPrefixOf d || "new ".data.isPrefixOf d, .added),
   (fun d => "remove".data.isPrefixOf d || "delete".data.isPrefixOf d, .removed),
   (fun d => "security".data.isPrefixOf d || containsSub "vulnerability".data d ||
      containsSub "cve".data d, .security),
   (fun d => "deprecat".data.isPrefixOf d, .deprecated),
   (fun d => "update".data.isPrefixOf d || "change".data.isPrefixOf d ||
      "improve".data.isPrefixOf d, .changed)]

/-- First-match-wins evaluation of the rule list; when no rule matches,
the active category is kept. -/
def specDetectType (active : ChangeType) (description : JStr) : ChangeType :=
  match specKeywordRules.find? (fun rule => rule.1 (lowerStr description)) with
  | some rule => rule.2
  | none => active

theorem detect_eq_spec (a : ChangeType) (d : JStr) : detectType a d = specDetectType a d := by
  unfold detectType specDetectType specKeywordRules
  simp only []
  cases h1 : ("fix".data.isPrefixOf (lowerStr d) || "bug".data.isPrefixOf (lowerStr d))
  case true =>
    rw [List.find?_cons_of_pos _ (by exact h1)]
    simp [h1]
  case false =>
    rw [List.find?_cons_of_neg _ (by simp only [Bool.not_eq_true]; exact h1)]
    simp only [h1, Bool.false_eq_true, if_false]
    cases h2 : ("add".data.isPrefixOf (lowerStr d) || "new ".data.isPrefixOf (lowerStr d))
    case true =>
      rw [List.find?_cons_of_pos _ (by exact h2)]
      simp [h2]
    case false =>
      rw [List.find?_cons_of_neg _ (by simp only [Bool.not_eq_true]; exact h2)]
      simp only [h2, Bool.false_eq_true, if_false]
      cases h3 : ("remove".data.isPrefixOf (lowerStr d) || "delete".data.isPrefixOf (lowerStr d))
      case true =>
        rw [List.find?_cons_of_pos _ (by exact h3)]
        simp [h3]
      case false =>
        rw [List.find?_cons_of_neg _ (by simp only [Bool.not_eq_true]; exact h3)]
        simp only [h3, Bool.false_eq_true, if_false]
        cases h4 : ("security".data.isPrefixOf (lowerStr d) ||
            containsSub "vulnerability".data (lowerStr d) || containsSub "cve".data (lowerStr d))
        case true =>
          rw [List.find?_cons_of_pos _ (by exact h4)]
          simp [h4]
        case false =>
          rw [List.find?_cons_of_neg _ (by simp only [Bool.not_eq_true]; exact h4)]
          simp only [h4, Bool.false_eq_true, if_false]
          cases h5 : ("deprecat".data.isPrefixOf (lowerStr d))
          case true =>
            rw [List.find?_cons_of_pos _ (by exact h5)]
            simp [h5]
          case false =>
            rw [List.find?_cons_of_neg _ (by simp only [Bool.not_eq_true]; exact h5)]
            simp only [h5, Bool.false_eq_true, if_false]
            cases h6 : ("update".data.isPrefixOf (lowerStr d) ||
                "change".data.isPrefixOf (lowerStr d) || "improve".data.isPrefixOf (lowerStr d))
            case true =>
              rw [List.find?_cons_of_pos _ (by exact h6)]
              simp [h6]
            case false =>
              rw [List.find?_cons_of_neg _ (by simp only [Bool.not_eq_true]; exact h6)]
              simp [h6]

/-- **C7.** For every list item line processed while a release is open,
the category assigned to the new change entry is exactly the result of
the claim's ordered keyword-rule list (case-insensitive, first match
wins, always overriding the active section category; the active category
is kept only when no rule matches): the source's if/else chain
`detectType` equals the rule-list evaluation `specDetectType` on every
input, and the parser step appends a change classified by it. -/
theorem parser_keyword_classification (a : ChangeType) (d : JStr) (today : JStr)
    (ids : Nat → JStr) (st : ParseState) (t : JStr) (r : Release) (cap : JStr)
    (hv : matchVersion t = none) (hs : sectionType t = none)
    (hl : listItem t = some cap) (hcur : st.current = some r) :
    detectType a d = specDetectType a d ∧
    (processTrimmed today ids st t).current
      = some { r with changes := r.changes ++
          [⟨ids st.nextId, specDetectType st.curType (jsTrim cap), jsTrim cap⟩] } := by
  refine ⟨detect_eq_spec a d, ?_⟩
  unfold processTrimmed
  simp only [hv, hs, hl, hcur, detect_eq_spec]

/-- **C7 witness.** A concrete list item starting with `Improve` while
the active category is `added` is re-classified to `changed`. -/
theorem parser_keyword_classification_witness :
    detectType ChangeType.added "Update x".data
      = specDetectType ChangeType.added "Update x".data ∧
    (processTrimmed "D".data (fun _ => "id".data)
        ⟨[], some ⟨"1.0.0".data, "d".data, []⟩, ChangeType.added, 0⟩
        "- Improve speed".data).current
      = some { (⟨"1.0.0".data, "d".data, []⟩ : Release) with
          changes := (⟨"1.0.0".data, "d".data, []⟩ : Release).changes ++
            [⟨"id".data, specDetectType ChangeType.added (jsTrim "Improve speed".data),
              jsTrim "Improve speed".data⟩] } :=
  parser_keyword_classification ChangeType.added "Update x".data "D".data
    (fun _ => "id".data)
    ⟨[], some ⟨"1.0.0".data, "d".data, []⟩, ChangeType.added, 0⟩
    "- Improve speed".data ⟨"1.0.0".data, "d".data, []⟩ "Improve speed".data
    (by decide) (by decide) (by decide) (by decide)


/-! ### C9: bare version lines open releases -/


theorem takeWhile_all {p : Char → Bool} (a : JStr) (ha : ∀ ch ∈ a, p ch = true) :
    a.takeWhile p = a ∧ a.dropWhile p = [] := by
  induction a with
  | nil => simp
  | cons y a ih =>
    have hy : p y = true := ha y (List.mem_cons_self y a)
    have ih' := ih (fun ch h => ha ch (List.mem_cons_of_mem _ h))
    simp [List.takeWhile_cons, List.dropWhile_cons, hy, ih'.1, ih'.2]

theorem takeWhile_all_append {p : Char → Bool} (a : JStr) (ha : ∀ ch ∈ a, p ch = true)
    {c : Char} (hc : p c = false) (x : JStr) :
    (a ++ c :: x).takeWhile p = a ∧ (a ++ c :: x).dropWhile p = c :: x := by
  induction a with
  | nil => simp [List.takeWhile_cons, List.dropWhile_cons, hc]
  | cons y a ih =>
    have hy : p y = true := ha y (List.mem_cons_self y a)
    have ih' := ih (fun ch h => ha ch (List.mem_cons_of_mem _ h))
    simp [List.takeWhile_cons, List.dropWhile_cons, hy, ih'.1, ih'.2]

theorem digit_facts {c : Char} (h : isDigitCh c = true) :
    isJsSpace c = false ∧ isLineTerm c = false ∧
    c ≠ '#' ∧ c ≠ '[' ∧ c ≠ 'v' ∧ c ≠ 'V' ∧ c ≠ '.' ∧ c ≠ ':' ∧
    isDashCh c = false ∧ isBulletCh c = false := by
  simp only [isDigitCh, decide_eq_true_eq] at h
  refine ⟨?_, ?_, ?_, ?_, ?_, ?_, ?_, ?_, ?_, ?_⟩
  · cases hsp : isJsSpace c with
    | false => rfl
    | true => simp only [isJsSpace, decide_eq_true_eq] at hsp; omega
  · cases hsp : isLineTerm c with
    | false => rfl
    | true => simp only [isLineTerm, decide_eq_true_eq] at hsp; omega
  · rintro rfl; exact absurd h (by decide)
  · rintro rfl; exact absurd h (by decide)
  · rintro rfl; exact absurd h (by decide)
  · rintro rfl; exact absurd h (by decide)
  · rintro rfl; exact absurd h (by decide)
  · rintro rfl; exact absurd h (by decide)
  · cases hsp : isDashCh c with
    | false => rfl
    | true => simp only [isDashCh, decide_eq_true_eq] at hsp; omega
  · cases hsp : isBulletCh c with
    | false => rfl
    | true => simp only [isBulletCh, decide_eq_true_eq] at hsp; omega

theorem matchP1_not_hash {c : Char} (h : c ≠ '#') (s : JStr) : matchP1 (c :: s) = none := by
  simp [matchP1, h]



theorem mvCore_two (a b x : JStr) (ha : a ≠ []) (hda : ∀ ch ∈ a, isDigitCh ch = true)
    (hb : b ≠ []) (hdb : ∀ ch ∈ b, isDigitCh ch = true)
    (hx : x = [] ∨ ∃ ch z, x = ch :: z ∧ isDigitCh ch = false ∧ ch ≠ '.') :
    matchVersionCore (a ++ '.' :: b ++ x) = some (a ++ '.' :: b, x) := by
  have h1 := takeWhile_all_append a hda (show isDigitCh '.' = false by decide) (b ++ x)
  have hd2 : (b ++ x).takeWhile isDigitCh = b ∧ (b ++ x).dropWhile isDigitCh = x := by
    rcases hx with rfl | ⟨ch, z, rfl, hch, _⟩
    · simpa using takeWhile_all b hdb
    · exact takeWhile_all_append b hdb hch z
  rw [show a ++ '.' :: b ++ x = a ++ '.' :: (b ++ x) from by simp]
  simp only [matchVersionCore, h1.1, h1.2, hd2.1, hd2.2, if_neg ha, if_neg hb]
  rcases hx with rfl | ⟨ch, z, rfl, hch, hch'⟩
  · rfl
  · simp [hch']



theorem mvCore_three (a b c x : JStr) (ha : a ≠ []) (hda : ∀ ch ∈ a, isDigitCh ch = true)
    (hb : b ≠ []) (hdb : ∀ ch ∈ b, isDigitCh ch = true)
    (hc : c ≠ []) (hdc : ∀ ch ∈ c, isDigitCh ch = true)
    (hx : x = [] ∨ ∃ ch z, x = ch :: z ∧ isDigitCh ch = false) :
    matchVersionCore (a ++ '.' :: b ++ '.' :: c ++ x) = some (a ++ '.' :: b ++ '.' :: c, x) := by
  have h1 := takeWhile_all_append a hda (show isDigitCh '.' = false by decide)
    (b ++ '.' :: (c ++ x))
  have h2 := takeWhile_all_append b hdb (show isDigitCh '.' = false by decide) (c ++ x)
  have hd3 : (c ++ x).takeWhile isDigitCh = c ∧ (c ++ x).dropWhile isDigitCh = x := by
    rcases hx with rfl | ⟨ch, z, rfl, hch⟩
    · simpa using takeWhile_all c hdc
    · exact takeWhile_all_append c hdc hch z
  rw [show a ++ '.' :: b ++ '.' :: c ++ x = a ++ '.' :: (b ++ '.' :: (c ++ x)) from by simp]
  simp only [matchVersionCore, h1.1, h1.2, h2.1, h2.2, hd3.1, hd3.2,
    if_neg ha, if_neg hb, if_neg hc]



theorem dropWhile_any_false {p q : Char → Bool} {l : JStr} (h : l.any p = false) :
    (l.dropWhile q).any p = false := by
  cases hx : (l.dropWhile q).any p with
  | false => rfl
  | true =>
    obtain ⟨ch, hch, hcp⟩ := List.any_eq_true.mp hx
    have hm : ch ∈ l := (List.dropWhile_sublist q).subset hch
    rw [← h]
    exact (List.any_eq_true.mpr ⟨ch, hm, hcp⟩).symm

theorem skipWs_cons_space (x : JStr) : skipWs (' ' :: x) = skipWs x := by
  simp [skipWs, List.dropWhile_cons, show isJsSpace ' ' = true by decide]

theorem skipWs_cons_of_not {c : Char} (h : isJsSpace c = false) (x : JStr) :
    skipWs (c :: x) = c :: x := by
  simp [skipWs, List.dropWhile_cons, h]

theorem matchTailNB_dash (rest : JStr) (hrest : rest.any isLineTerm = false) :
    ∃ g, matchTailNoBracket (' ' :: '-' :: ' ' :: rest) = some g := by
  have h2 : skipWs (' ' :: '-' :: ' ' :: rest) = '-' :: ' ' :: rest := by
    rw [skipWs_cons_space, skipWs_cons_of_not (by decide)]
  unfold matchTailNoBracket
  rw [h2]
  simp only [show isDashCh '-' = true from rfl, if_true, skipWs_cons_space]
  by_cases hnil : skipWs rest = []
  · exact ⟨[], by simp [hnil]⟩
  · refine ⟨skipWs rest, ?_⟩
    have hterm : (skipWs rest).any isLineTerm = false := dropWhile_any_false hrest
    simp [hnil, hterm]

theorem matchTailNB_nil : matchTailNoBracket [] = some [] := rfl



theorem matchP2_digit_head {ah : Char} (hah : isDigitCh ah = true) (X : JStr) :
    matchP2 (ah :: X)
      = match matchVersionCore (ah :: X) with
        | some (ver, rest) => (matchTailNoBracket rest).map (fun g => (ver, g))
        | none => none := by
  have hv := (digit_facts hah).2.2.2.2.1
  have hV := (digit_facts hah).2.2.2.2.2.1
  unfold matchP2
  simp only []
  rw [if_neg (by simp [hv, hV])]

theorem matchP2_v_head (X : JStr) :
    matchP2 ('v' :: X)
      = match matchVersionCore X with
        | some (ver, rest) => (matchTailNoBracket rest).map (fun g => (ver, g))
        | none => none := by
  unfold matchP2
  simp



/-- **C9.** The parser opens a new release not only for heading-marker
version lines.  A line consisting of a bare dotted version number with
two or three nonempty numeric components, optionally `v`-prefixed and
optionally followed by a dash and a remainder, or a line of the form
`Version: X.Y.Z` — with no `#` heading marker at all — matches as a
version header and opens a new release with exactly that version string
(and an empty changes list).  `jsTrim line = line` says the line is
exactly this content (the parser trims each line first); the remainder
must contain no line terminator, which `.`-based capture cannot match. -/
theorem parser_bare_version_header (today : JStr) (ids : Nat → JStr) (st : ParseState)
    (a b c rest : JStr) (vp three tl : Bool)
    (ha : a ≠ []) (hda : ∀ ch ∈ a, isDigitCh ch = true)
    (hb : b ≠ []) (hdb : ∀ ch ∈ b, isDigitCh ch = true)
    (hc : c ≠ []) (hdc : ∀ ch ∈ c, isDigitCh ch = true)
    (hrest : rest.any isLineTerm = false) :
    (∀ line, line = (if vp then ['v'] else [])
          ++ (a ++ '.' :: b ++ (if three then '.' :: c else []))
          ++ (if tl then ' ' :: '-' :: ' ' :: rest else []) →
        jsTrim line = line →
        ∃ d, (processLine today ids st line).current
          = some ⟨a ++ '.' :: b ++ (if three then '.' :: c else []), d, []⟩) ∧
    (∀ line, line = "Version: ".data ++ (a ++ '.' :: b ++ '.' :: c) →
        jsTrim line = line →
        ∃ d, (processLine today ids st line).current
          = some ⟨a ++ '.' :: b ++ '.' :: c, d, []⟩) := by
  obtain ⟨ah, a', ha2⟩ : ∃ ah a', a = ah :: a' := by
    cases a with
    | nil => exact absurd rfl ha
    | cons x xs => exact ⟨x, xs, rfl⟩
  have hah : isDigitCh ah = true := hda ah (by rw [ha2]; exact List.mem_cons_self ah a')
  have hcore : ∀ T : JStr, (T = [] ∨ T = ' ' :: '-' :: ' ' :: rest) →
      matchVersionCore ((a ++ '.' :: b ++ (if three then '.' :: c else [])) ++ T)
        = some (a ++ '.' :: b ++ (if three then '.' :: c else []), T) := by
    intro T hTcase
    cases three with
    | false =>
      rcases hTcase with rfl | rfl
      · simpa using mvCore_two a b [] ha hda hb hdb (Or.inl rfl)
      · simpa using mvCore_two a b (' ' :: '-' :: ' ' :: rest) ha hda hb hdb
          (Or.inr ⟨' ', '-' :: ' ' :: rest, rfl, by decide, by decide⟩)
    | true =>
      rcases hTcase with rfl | rfl
      · simpa using mvCore_three a b c [] ha hda hb hdb hc hdc (Or.inl rfl)
      · simpa using mvCore_three a b c (' ' :: '-' :: ' ' :: rest) ha hda hb hdb hc hdc
          (Or.inr ⟨' ', '-' :: ' ' :: rest, rfl, by decide⟩)
  constructor
  · intro line hline htrim
    set K := a ++ '.' :: b ++ (if three then '.' :: c else []) with hK
    set T := (if tl then ' ' :: '-' :: ' ' :: rest else []) with hTdef
    have hTcase : T = [] ∨ T = ' ' :: '-' :: ' ' :: rest := by
      cases tl <;> simp [hTdef]
    obtain ⟨g, hg⟩ : ∃ g, matchTailNoBracket T = some g := by
      rcases hTcase with h | h
      · exact ⟨[], by rw [h]; rfl⟩
      · rw [h]; exact matchTailNB_dash rest hrest
    have hKT : K ++ T = ah :: (a' ++ '.' :: b ++ (if three then '.' :: c else []) ++ T) := by
      rw [hK, ha2]
      simp [List.append_assoc]
    have hP2 : matchP2 (K ++ T) = some (K, g) := by
      rw [hKT, matchP2_digit_head hah, ← hKT, hcore T hTcase]
      simp [hg]
    have hP1KT : matchP1 (K ++ T) = none := by
      rw [hKT]
      exact matchP1_not_hash (digit_facts hah).2.2.1 _
    have hKTnil : K ++ T ≠ [] := by rw [hKT]; simp
    cases vp with
    | false =>
      have hline' : line = K ++ T := by
        rw [hline, hK, hTdef]
        simp [List.append_assoc]
      have hMV : matchVersion line = some (K, g) := by
        unfold matchVersion
        rw [hline', hP1KT, hP2]
      refine ⟨dateOf today g, ?_⟩
      unfold processLine
      simp only [htrim]
      rw [if_neg (by rw [hline']; exact hKTnil)]
      unfold processTrimmed
      rw [hMV]
    | true =>
      have hline' : line = 'v' :: (K ++ T) := by
        rw [hline, hK, hTdef]
        simp [List.append_assoc]
      have hP1 : matchP1 line = none := by
        rw [hline']
        exact matchP1_not_hash (by decide) _
      have hP2' : matchP2 line = some (K, g) := by
        rw [hline', matchP2_v_head, hcore T hTcase]
        simp [hg]
      have hMV : matchVersion line = some (K, g) := by
        unfold matchVersion
        rw [hP1, hP2']
      refine ⟨dateOf today g, ?_⟩
      unfold processLine
      simp only [htrim]
      rw [if_neg (by rw [hline']; simp)]
      unfold processTrimmed
      rw [hMV]
  · intro line hline htrim
    have hver : "Version: ".data = 'V' :: 'e' :: 'r' :: 's' :: 'i' :: 'o' :: 'n' :: ':' :: ' ' :: [] := rfl
    have hP1 : matchP1 line = none := by
      rw [hline, hver]
      exact matchP1_not_hash (by decide) _
    have hP2 : matchP2 line = none := by
      rw [hline, hver]
      simp only [List.cons_append, List.nil_append]
      rw [show matchP2 ('V' :: 'e' :: 'r' :: 's' :: 'i' :: 'o' :: 'n' :: ':' :: ' ' ::
          (a ++ '.' :: b ++ '.' :: c))
        = match matchVersionCore ('e' :: 'r' :: 's' :: 'i' :: 'o' :: 'n' :: ':' :: ' ' ::
            (a ++ '.' :: b ++ '.' :: c)) with
          | some (ver, rest) => (matchTailNoBracket rest).map (fun g => (ver, g))
          | none => none from by unfold matchP2; simp]
      rw [show matchVersionCore ('e' :: 'r' :: 's' :: 'i' :: 'o' :: 'n' :: ':' :: ' ' ::
          (a ++ '.' :: b ++ '.' :: c)) = none from by
        unfold matchVersionCore
        simp [List.takeWhile_cons, show isDigitCh 'e' = false by decide]]
    have hci : matchCI "version".data line
        = some (':' :: ' ' :: (a ++ '.' :: b ++ '.' :: c)) := by
      rw [hline, hver]
      simp [matchCI, lowerAscii]
    have hcore3 : matchVersionCore (a ++ '.' :: b ++ '.' :: c)
        = some (a ++ '.' :: b ++ '.' :: c, []) := by
      simpa using mvCore_three a b c [] ha hda hb hdb hc hdc (Or.inl rfl)
    have haheads : a ++ '.' :: b ++ '.' :: c
        = ah :: (a' ++ '.' :: b ++ '.' :: c) := by
      rw [ha2]; simp [List.append_assoc]
    have hP3 : matchP3 line = some (a ++ '.' :: b ++ '.' :: c, []) := by
      unfold matchP3
      rw [hci]
      simp only []
      rw [show skipWs (':' :: ' ' :: (a ++ '.' :: b ++ '.' :: c))
          = ':' :: ' ' :: (a ++ '.' :: b ++ '.' :: c) from
        skipWs_cons_of_not (by decide) _]
      simp only []
      rw [show skipWs (' ' :: (a ++ '.' :: b ++ '.' :: c))
          = a ++ '.' :: b ++ '.' :: c from by
        rw [skipWs_cons_space, haheads, skipWs_cons_of_not (digit_facts hah).1]]
      rw [haheads]
      simp only []
      rw [if_neg (by
        simp [(digit_facts hah).2.2.2.2.1, (digit_facts hah).2.2.2.2.2.1])]
      rw [← haheads, hcore3]
      rfl
    have hMV : matchVersion line = some (a ++ '.' :: b ++ '.' :: c, []) := by
      unfold matchVersion
      rw [hP1, hP2, hP3]
    refine ⟨dateOf today [], ?_⟩
    unfold processLine
    simp only [htrim]
    rw [if_neg (by rw [hline, hver]; simp)]
    unfold processTrimmed
    rw [hMV]


/-- **C9 witness.** The bare line `v1.2.3 - 2024-01-01` (no `#`) opens a
release with version `1.2.3`. -/
theorem parser_bare_version_header_witness :
    ∃ d, (processLine "TODAY".data (fun _ => "id".data)
        ⟨[], none, ChangeType.added, 0⟩ "v1.2.3 - 2024-01-01".data).current
      = some ⟨"1".data ++ '.' :: "2".data ++ (if true then '.' :: "3".data else []),
          d, []⟩ :=
  (parser_bare_version_header "TODAY".data (fun _ => "id".data)
      ⟨[], none, ChangeType.added, 0⟩ "1".data "2".data "3".data "2024-01-01".data
      true true true (by decide) (by decide) (by decide) (by decide) (by decide)
      (by decide) (by decide)).1
    "v1.2.3 - 2024-01-01".data (by decide) (by decide)

end Shiplog

namespace Shiplog

/-! ## The JSON renderer (`generateJSON`, src/lib/types.ts) -/

inductive JsonVal where
  | jstr : JStr → JsonVal
  | jarr : List JsonVal → JsonVal
  | jobj : List (JStr × JsonVal) → JsonVal
  deriving Repr

def hexDigit (n : Nat) : Char := "0123456789abcdef".data.getD n '0'

def escChar (c : Char) : JStr :=
  if c = '"' then ['\\', '"']
  else if c = '\\' then ['\\', '\\']
  else if c = '\x08' then ['\\', 'b']
  else if c = '\x0c' then ['\\', 'f']
  else if c = '\n' then ['\\', 'n']
  else if c = '\r' then ['\\', 'r']
  else if c = '\t' then ['\\', 't']
  else if c.toNat < 0x20 then
    ['\\', 'u', '0', '0', hexDigit (c.toNat / 16), hexDigit (c.toNat % 16)]
  else [c]

def quoteJson (s : JStr) : JStr := '"' :: (s.map escChar).flatten ++ ['"']

def joinSep (sep : JStr) : List JStr → JStr
  | [] => []
  | [x] => x
  | x :: y :: xs => x ++ sep ++ joinSep sep (y :: xs)

mutual

def stringifyVal (ind : JStr) : JsonVal → JStr
  | .jstr s => quoteJson s
  | .jarr [] => ['[', ']']
  | .jarr (x :: xs) =>
    '[' :: '\n' :: (ind ++ "  ".data)
      ++ joinSep (',' :: '\n' :: (ind ++ "  ".data))
          (stringifyList (ind ++ "  ".data) (x :: xs))
      ++ '\n' :: (ind ++ [']'])
  | .jobj [] => ['\x7b', '\x7d']
  | .jobj (kv :: kvs) =>
    '\x7b' :: '\n' :: (ind ++ "  ".data)
      ++ joinSep (',' :: '\n' :: (ind ++ "  ".data))
          (stringifyMembers (ind ++ "  ".data) (kv :: kvs))
      ++ '\n' :: (ind ++ ['\x7d'])

def stringifyList (ind : JStr) : List JsonVal → List JStr
  | [] => []
  | x :: xs => stringifyVal ind x :: stringifyList ind xs

def stringifyMembers (ind : JStr) : List (JStr × JsonVal) → List JStr
  | [] => []
  | (k, v) :: kvs =>
    (quoteJson k ++ ':' :: ' ' :: stringifyVal ind v) :: stringifyMembers ind kvs

end

def changeJsonVal (c : ChangeItem) : JsonVal :=
  .jobj [("id".data, .jstr c.id), ("type".data, .jstr c.type.tag),
         ("description".data, .jstr c.description)]

def releaseJsonVal (r : Release) : JsonVal :=
  .jobj [("version".data, .jstr r.version), ("date".data, .jstr r.date),
         ("changes".data, .jarr (r.changes.map changeJsonVal))]

def releasesJsonVal (rs : List Release) : JsonVal :=
  .jobj [("releases".data, .jarr (rs.map releaseJsonVal))]

def generateJSON (rs : List Release) : JStr := stringifyVal [] (releasesJsonVal rs)

end Shiplog

namespace Shiplog

/-! ### A JSON parser (`JSON.parse`), restricted to the string/array/object
fragment — the only forms `generateJSON` can emit (no numbers, booleans
or null occur in its output).  Fuel-indexed recursion; the top-level
entry point supplies fuel `length + 1`, which the round-trip proof shows
is sufficient for every printed value. -/

def isJsonWs (c : Char) : Bool := c = ' ' ∨ c = '\t' ∨ c = '\n' ∨ c = '\r'

def skipJWs (s : JStr) : JStr := s.dropWhile isJsonWs

def hexVal (c : Char) : Option Nat :=
  if 48 ≤ c.toNat ∧ c.toNat ≤ 57 then some (c.toNat - 48)
  else if 97 ≤ c.toNat ∧ c.toNat ≤ 102 then some (c.toNat - 87)
  else if 65 ≤ c.toNat ∧ c.toNat ≤ 70 then some (c.toNat - 55)
  else none

/-- Parse the body of a string literal after the opening quote,
unescaping; a raw control character is rejected as in `JSON.parse`.
(A `\\u` escape denoting a surrogate code unit is rejected rather than
paired; the printer never emits one.) -/
def parseStrRest : JStr → Option (JStr × JStr)
  | [] => none
  | c :: r =>
    if c = '"' then some ([], r)
    else if c = '\\' then
      match r with
      | [] => none
      | e :: r1 =>
        if e = '"' then (parseStrRest r1).map (fun p => ('"' :: p.1, p.2))
        else if e = '\\' then (parseStrRest r1).map (fun p => ('\\' :: p.1, p.2))
        else if e = '/' then (parseStrRest r1).map (fun p => ('/' :: p.1, p.2))
        else if e = 'b' then (parseStrRest r1).map (fun p => ('\x08' :: p.1, p.2))
        else if e = 'f' then (parseStrRest r1).map (fun p => ('\x0c' :: p.1, p.2))
        else if e = 'n' then (parseStrRest r1).map (fun p => ('\n' :: p.1, p.2))
        else if e = 'r' then (parseStrRest r1).map (fun p => ('\r' :: p.1, p.2))
        else if e = 't' then (parseStrRest r1).map (fun p => ('\t' :: p.1, p.2))
        else if e = 'u' then
          match r1 with
          | h1 :: h2 :: h3 :: h4 :: r2 =>
            match hexVal h1, hexVal h2, hexVal h3, hexVal h4 with
            | some n1, some n2, some n3, some n4 =>
              let n := ((n1 * 16 + n2) * 16 + n3) * 16 + n4
              if n.isValidChar then
                (parseStrRest r2).map (fun p => (Char.ofNat n :: p.1, p.2))
              else none
            | _, _, _, _ => none
          | _ => none
        else none
    else if c.toNat < 0x20 then none
    else (parseStrRest r).map (fun p => (c :: p.1, p.2))

mutual

def parseV : Nat → JStr → Option (JsonVal × JStr)
  | 0, _ => none
  | fuel + 1, s =>
    match skipJWs s with
    | '"' :: r => (parseStrRest r).map (fun p => (.jstr p.1, p.2))
    | '[' :: r =>
      match skipJWs r with
      | ']' :: r2 => some (.jarr [], r2)
      | _ => (parseElems fuel r).map (fun p => (.jarr p.1, p.2))
    | '\x7b' :: r =>
      match skipJWs r with
      | '\x7d' :: r2 => some (.jobj [], r2)
      | _ => (parseMembers fuel r).map (fun p => (.jobj p.1, p.2))
    | _ => none

def parseElems : Nat → JStr → Option (List JsonVal × JStr)
  | 0, _ => none
  | fuel + 1, s =>
    match parseV fuel s with
    | some (v, t) =>
      match skipJWs t with
      | ',' :: t2 => (parseElems fuel t2).map (fun p => (v :: p.1, p.2))
      | ']' :: t2 => some ([v], t2)
      | _ => none
    | none => none

def parseMembers : Nat → JStr → Option (List (JStr × JsonVal) × JStr)
  | 0, _ => none
  | fuel + 1, s =>
    match skipJWs s with
    | '"' :: r =>
      match parseStrRest r with
      | some (k, t) =>
        match skipJWs t with
        | ':' :: t2 =>
          match parseV fuel t2 with
          | some (v, u) =>
            match skipJWs u with
            | ',' :: u2 => (parseMembers fuel u2).map (fun p => ((k, v) :: p.1, p.2))
            | '\x7d' :: u2 => some ([(k, v)], u2)
            | _ => none
          | none => none
        | _ => none
      | none => none
    | _ => none

end

/-- `JSON.parse`: parse one value and require only whitespace after it. -/
def parseJson (s : JStr) : Option JsonVal :=
  match parseV (s.length + 1) s with
  | some (v, rest) => if skipJWs rest = [] then some v else none
  | none => none

/-- Structural decoding of the parsed value back into the data model
(the claim's "every release's version, date, and every entry's id, type,
and description are recovered unchanged, in the same order"). -/
def decodeType (s : JStr) : Option ChangeType :=
  if s = "added".data then some .added
  else if s = "changed".data then some .changed
  else if s = "fixed".data then some .fixed
  else if s = "removed".data then some .removed
  else if s = "security".data then some .security
  else if s = "deprecated".data then some .deprecated
  else none

def decodeList {α : Type} (f : JsonVal → Option α) : List JsonVal → Option (List α)
  | [] => some []
  | x :: xs =>
    match f x, decodeList f xs with
    | some a, some as => some (a :: as)
    | _, _ => none

def decodeChange : JsonVal → Option ChangeItem
  | .jobj [(k1, .jstr i), (k2, .jstr t), (k3, .jstr d)] =>
    if k1 = "id".data ∧ k2 = "type".data ∧ k3 = "description".data then
      (decodeType t).map (fun ty => ⟨i, ty, d⟩)
    else none
  | _ => none

def decodeRelease : JsonVal → Option Release
  | .jobj [(k1, .jstr v), (k2, .jstr d), (k3, .jarr cs)] =>
    if k1 = "version".data ∧ k2 = "date".data ∧ k3 = "changes".data then
      (decodeList decodeChange cs).map (fun chs => ⟨v, d, chs⟩)
    else none
  | _ => none

def decodeTop : JsonVal → Option (List Release)
  | .jobj [(k, .jarr rs)] =>
    if k = "releases".data then decodeList decodeRelease rs else none
  | _ => none

theorem hexVal_hexDigit : ∀ m < 16, hexVal (hexDigit m) = some m := by decide

theorem parseStrRest_quote (s : JStr) :
    ∀ rest, parseStrRest ((s.map escChar).flatten ++ '"' :: rest) = some (s, rest) := by
  induction s with
  | nil =>
    intro rest
    rw [show (List.map escChar []).flatten ++ '"' :: rest = '"' :: rest by simp]
    rw [parseStrRest.eq_def]
    simp
  | cons c s ih =>
    intro rest
    simp only [List.map_cons, List.flatten_cons, List.append_assoc]
    by_cases h1 : c = '"'
    · subst h1
      rw [show escChar '"' = ['\\', '"'] from rfl]
      simp only [List.cons_append, List.nil_append]
      rw [parseStrRest.eq_def]
      simp [ih]
    · by_cases h2 : c = '\\'
      · subst h2
        rw [show escChar '\\' = ['\\', '\\'] from rfl]
        simp only [List.cons_append, List.nil_append]
        rw [parseStrRest.eq_def]
        simp [ih]
      · by_cases h3 : c = '\x08'
        · subst h3
          rw [show escChar '\x08' = ['\\', 'b'] from rfl]
          simp only [List.cons_append, List.nil_append]
          rw [parseStrRest.eq_def]
          simp [ih]
        · by_cases h4 : c = '\x0c'
          · subst h4
            rw [show escChar '\x0c' = ['\\', 'f'] from rfl]
            simp only [List.cons_append, List.nil_append]
            rw [parseStrRest.eq_def]
            simp [ih]
          · by_cases h5 : c = '\n'
            · subst h5
              rw [show escChar '\n' = ['\\', 'n'] from rfl]
              simp only [List.cons_append, List.nil_append]
              rw [parseStrRest.eq_def]
              simp [ih]
            · by_cases h6 : c = '\r'
              · subst h6
                rw [show escChar '\r' = ['\\', 'r'] from rfl]
                simp only [List.cons_append, List.nil_append]
                rw [parseStrRest.eq_def]
                simp [ih]
              · by_cases h7 : c = '\t'
                · subst h7
                  rw [show escChar '\t' = ['\\', 't'] from rfl]
                  simp only [List.cons_append, List.nil_append]
                  rw [parseStrRest.eq_def]
                  simp [ih]
                · by_cases h8 : c.toNat < 0x20
                  · simp only [escChar, if_neg h1, if_neg h2, if_neg h3, if_neg h4,
                      if_neg h5, if_neg h6, if_neg h7, if_pos h8, List.cons_append,
                      List.nil_append]
                    rw [parseStrRest.eq_def]
                    simp only [hexVal_hexDigit (c.toNat / 16) (by omega),
                      hexVal_hexDigit (c.toNat % 16) (by omega),
                      show hexVal '0' = some 0 from rfl]
                    simp only [show (('\\' : Char) = '"') = False by simp,
                      show (('\\' : Char) = '\\') = True by simp,
                      show (('u' : Char) = '"') = False by simp,
                      show (('u' : Char) = '\\') = False by simp,
                      show (('u' : Char) = '/') = False by simp,
                      show (('u' : Char) = 'b') = False by simp,
                      show (('u' : Char) = 'f') = False by simp,
                      show (('u' : Char) = 'n') = False by simp,
                      show (('u' : Char) = 'r') = False by simp,
                      show (('u' : Char) = 't') = False by simp,
                      show (('u' : Char) = 'u') = True by simp,
                      if_true, if_false]
                    rw [show ((0 * 16 + 0) * 16 + c.toNat / 16) * 16 + c.toNat % 16
                        = c.toNat from by omega]
                    rw [if_pos (Or.inl (by omega) : Nat.isValidChar c.toNat)]
                    simp [Char.ofNat_toNat, ih]
                  · simp only [escChar, if_neg h1, if_neg h2, if_neg h3, if_neg h4,
                      if_neg h5, if_neg h6, if_neg h7, if_neg h8, List.cons_append,
                      List.nil_append]
                    rw [parseStrRest.eq_def]
                    simp [if_neg h1, if_neg h2, if_neg h8, ih]


theorem skipJWs_cons_of_not (c : Char) (h : isJsonWs c = false) (x : JStr) :
    skipJWs (c :: x) = c :: x := by
  simp [skipJWs, List.dropWhile_cons, h]

theorem skipJWs_cons_ws (c : Char) (h : isJsonWs c = true) (x : JStr) :
    skipJWs (c :: x) = skipJWs x := by
  simp [skipJWs, List.dropWhile_cons, h]

theorem skipJWs_append_sp {ind : JStr} (h : ∀ ch ∈ ind, ch = ' ') (x : JStr) :
    skipJWs (ind ++ x) = skipJWs x := by
  induction ind with
  | nil => rfl
  | cons c ind ih =>
    rw [List.cons_append, skipJWs_cons_ws c
      (by rw [h c (List.mem_cons_self c ind)]; decide)]
    exact ih (fun ch hch => h ch (List.mem_cons_of_mem c hch))

theorem parseV_congr {s₁ s₂ : JStr} (h : skipJWs s₁ = skipJWs s₂) :
    ∀ f, parseV f s₁ = parseV f s₂ := by
  intro f
  cases f with
  | zero => rfl
  | succ f => rw [parseV, parseV, h]

theorem parseMembers_congr {s₁ s₂ : JStr} (h : skipJWs s₁ = skipJWs s₂) :
    ∀ f, parseMembers f s₁ = parseMembers f s₂ := by
  intro f
  cases f with
  | zero => rfl
  | succ f => rw [parseMembers, parseMembers, h]

theorem parseElems_congr {s₁ s₂ : JStr} (h : skipJWs s₁ = skipJWs s₂) :
    ∀ f, parseElems f s₁ = parseElems f s₂ := by
  intro f
  cases f with
  | zero => rfl
  | succ f => rw [parseElems, parseElems, parseV_congr h]

theorem parseV_quote (f : Nat) (s rest : JStr) :
    parseV (f + 1) (quoteJson s ++ rest) = some (.jstr s, rest) := by
  have hq : quoteJson s ++ rest = '"' :: ((s.map escChar).flatten ++ '"' :: rest) := by
    simp [quoteJson]
  rw [parseV, hq, skipJWs_cons_of_not '"' (by decide)]
  simp [parseStrRest_quote s rest]


theorem parseV_obj (f : Nat) (s r : JStr) (kvs : List (JStr × JsonVal)) (rest : JStr)
    (hs : skipJWs s = '\x7b' :: r) (hr : ∃ q, skipJWs r = '"' :: q)
    (hm : parseMembers f r = some (kvs, rest)) :
    parseV (f + 1) s = some (.jobj kvs, rest) := by
  obtain ⟨q, hr⟩ := hr
  rw [parseV, hs]
  simp [hr, hm]

theorem parseV_arr (f : Nat) (s r : JStr) (xs : List JsonVal) (rest : JStr)
    (hs : skipJWs s = '[' :: r) (hr : ∃ q, skipJWs r = '\x7b' :: q)
    (he : parseElems f r = some (xs, rest)) :
    parseV (f + 1) s = some (.jarr xs, rest) := by
  obtain ⟨q, hr⟩ := hr
  rw [parseV, hs]
  simp [hr, he]

theorem parseV_arr_empty (f : Nat) (s r rest : JStr)
    (hs : skipJWs s = '[' :: r) (hr : skipJWs r = ']' :: rest) :
    parseV (f + 1) s = some (.jarr [], rest) := by
  rw [parseV, hs]
  simp [hr]

theorem parseMembers_last (f : Nat) (k vtxt : JStr) (v : JsonVal) (ind rest : JStr)
    (hv : ∀ u, parseV f (vtxt ++ u) = some (v, u))
    (hind : ∀ ch ∈ ind, ch = ' ') :
    parseMembers (f + 1)
      (quoteJson k ++ ':' :: ' ' :: (vtxt ++ '\n' :: (ind ++ '\x7d' :: rest)))
      = some ([(k, v)], rest) := by
  have hq : quoteJson k ++ ':' :: ' ' :: (vtxt ++ '\n' :: (ind ++ '\x7d' :: rest))
      = '"' :: ((k.map escChar).flatten
          ++ '"' :: ':' :: ' ' :: (vtxt ++ '\n' :: (ind ++ '\x7d' :: rest))) := by
    simp [quoteJson]
  have h2 : parseV f (' ' :: (vtxt ++ '\n' :: (ind ++ '\x7d' :: rest)))
      = some (v, '\n' :: (ind ++ '\x7d' :: rest)) := by
    rw [parseV_congr (skipJWs_cons_ws ' ' (by decide) _) f, hv]
  have h3 : skipJWs ('\n' :: (ind ++ '\x7d' :: rest)) = '\x7d' :: rest := by
    rw [skipJWs_cons_ws '\n' (by decide), skipJWs_append_sp hind,
        skipJWs_cons_of_not '\x7d' (by decide)]
  rw [parseMembers, hq, skipJWs_cons_of_not '"' (by decide)]
  simp [parseStrRest_quote, skipJWs_cons_of_not ':' (by decide), h2, h3]

theorem parseMembers_cons (f : Nat) (k vtxt : JStr) (v : JsonVal) (ind t : JStr)
    (hv : ∀ u, parseV f (vtxt ++ u) = some (v, u))
    (hind : ∀ ch ∈ ind, ch = ' ') :
    parseMembers (f + 1)
      (quoteJson k ++ ':' :: ' ' :: (vtxt ++ ',' :: '\n' :: (ind ++ t)))
      = (parseMembers f t).map (fun p => ((k, v) :: p.1, p.2)) := by
  have hq : quoteJson k ++ ':' :: ' ' :: (vtxt ++ ',' :: '\n' :: (ind ++ t))
      = '"' :: ((k.map escChar).flatten
          ++ '"' :: ':' :: ' ' :: (vtxt ++ ',' :: '\n' :: (ind ++ t))) := by
    simp [quoteJson]
  have h2 : parseV f (' ' :: (vtxt ++ ',' :: '\n' :: (ind ++ t)))
      = some (v, ',' :: '\n' :: (ind ++ t)) := by
    rw [parseV_congr (skipJWs_cons_ws ' ' (by decide) _) f, hv]
  have h4 : parseMembers f ('\n' :: (ind ++ t)) = parseMembers f t := by
    refine parseMembers_congr ?_ f
    rw [skipJWs_cons_ws '\n' (by decide), skipJWs_append_sp hind]
  rw [parseMembers, hq, skipJWs_cons_of_not '"' (by decide)]
  simp [parseStrRest_quote, skipJWs_cons_of_not ':' (by decide), h2,
        skipJWs_cons_of_not ',' (by decide), h4]

theorem parseElems_last (f : Nat) (vtxt : JStr) (v : JsonVal) (ind rest : JStr)
    (hv : ∀ u, parseV f (vtxt ++ u) = some (v, u))
    (hind : ∀ ch ∈ ind, ch = ' ') :
    parseElems (f + 1) (vtxt ++ '\n' :: (ind ++ ']' :: rest)) = some ([v], rest) := by
  have h3 : skipJWs ('\n' :: (ind ++ ']' :: rest)) = ']' :: rest := by
    rw [skipJWs_cons_ws '\n' (by decide), skipJWs_append_sp hind,
        skipJWs_cons_of_not ']' (by decide)]
  rw [parseElems, hv]
  simp [h3]

theorem parseElems_cons (f : Nat) (vtxt : JStr) (v : JsonVal) (ind t : JStr)
    (hv : ∀ u, parseV f (vtxt ++ u) = some (v, u))
    (hind : ∀ ch ∈ ind, ch = ' ') :
    parseElems (f + 1) (vtxt ++ ',' :: '\n' :: (ind ++ t))
      = (parseElems f t).map (fun p => (v :: p.1, p.2)) := by
  have h4 : parseElems f ('\n' :: (ind ++ t)) = parseElems f t := by
    refine parseElems_congr ?_ f
    rw [skipJWs_cons_ws '\n' (by decide), skipJWs_append_sp hind]
  rw [parseElems, hv]
  simp [skipJWs_cons_of_not ',' (by decide), h4]


theorem allSp_two (ind : JStr) (h : ∀ ch ∈ ind, ch = ' ') :
    ∀ ch ∈ ind ++ "  ".data, ch = ' ' := by
  intro ch hch
  rcases List.mem_append.1 hch with h1 | h1
  · exact h ch h1
  · have h2 : ch ∈ [' ', ' '] := h1
    rcases List.mem_cons.1 h2 with h3 | h3
    · exact h3
    · exact List.mem_singleton.1 h3

theorem skipJWs_quote (k x : JStr) :
    skipJWs (quoteJson k ++ x) = '"' :: ((k.map escChar).flatten ++ '"' :: x) := by
  have hq : quoteJson k ++ x = '"' :: ((k.map escChar).flatten ++ '"' :: x) := by
    simp [quoteJson]
  rw [hq, skipJWs_cons_of_not '"' (by decide)]

theorem parseMembers_ws (f : Nat) (ind x : JStr) (h : ∀ ch ∈ ind, ch = ' ') :
    parseMembers f ('\n' :: (ind ++ x)) = parseMembers f x :=
  parseMembers_congr (by rw [skipJWs_cons_ws '\n' (by decide), skipJWs_append_sp h]) f

theorem parseElems_ws (f : Nat) (ind x : JStr) (h : ∀ ch ∈ ind, ch = ' ') :
    parseElems f ('\n' :: (ind ++ x)) = parseElems f x :=
  parseElems_congr (by rw [skipJWs_cons_ws '\n' (by decide), skipJWs_append_sp h]) f

theorem stringifyVal_jstr (ind s : JStr) : stringifyVal ind (.jstr s) = quoteJson s := by
  simp [stringifyVal]

theorem stringifyVal_obj_cons (ind : JStr) (kv : JStr × JsonVal)
    (kvs : List (JStr × JsonVal)) :
    stringifyVal ind (.jobj (kv :: kvs))
      = '\x7b' :: '\n' :: (ind ++ "  ".data)
          ++ joinSep (',' :: '\n' :: (ind ++ "  ".data))
              (stringifyMembers (ind ++ "  ".data) (kv :: kvs))
          ++ '\n' :: (ind ++ ['\x7d']) := by
  simp [stringifyVal]

theorem stringifyMembers_nil (ind : JStr) : stringifyMembers ind [] = [] := by
  simp [stringifyMembers]

theorem stringifyMembers_cons (ind k : JStr) (v : JsonVal) (kvs : List (JStr × JsonVal)) :
    stringifyMembers ind ((k, v) :: kvs)
      = (quoteJson k ++ ':' :: ' ' :: stringifyVal ind v) :: stringifyMembers ind kvs := by
  simp [stringifyMembers]

theorem parseV_obj3 (k1 k2 k3 s1 s2 s3 : JStr) (f : Nat) (ind rest : JStr)
    (hind : ∀ ch ∈ ind, ch = ' ') :
    parseV (f + 5)
      (stringifyVal ind (.jobj [(k1, .jstr s1), (k2, .jstr s2), (k3, .jstr s3)]) ++ rest)
      = some (.jobj [(k1, .jstr s1), (k2, .jstr s2), (k3, .jstr s3)], rest) := by
  have hind1 : ∀ ch ∈ ind ++ "  ".data, ch = ' ' := allSp_two ind hind
  have hp : stringifyVal ind (.jobj [(k1, .jstr s1), (k2, .jstr s2), (k3, .jstr s3)]) ++ rest
      = '\x7b' :: '\n' :: ((ind ++ "  ".data) ++
          (quoteJson k1 ++ ':' :: ' ' ::
            (quoteJson s1 ++ ',' :: '\n' :: ((ind ++ "  ".data) ++
          (quoteJson k2 ++ ':' :: ' ' ::
            (quoteJson s2 ++ ',' :: '\n' :: ((ind ++ "  ".data) ++
          (quoteJson k3 ++ ':' :: ' ' ::
            (quoteJson s3 ++ '\n' :: (ind ++ '\x7d' :: rest)))))))))) := by
    simp [stringifyVal, stringifyMembers, joinSep]
  rw [hp]
  refine parseV_obj (f + 4) _ _ _ rest
    (skipJWs_cons_of_not '\x7b' (by decide) _) ?_ ?_
  · rw [skipJWs_cons_ws '\n' (by decide), skipJWs_append_sp hind1, skipJWs_quote]
    exact ⟨_, rfl⟩
  · rw [parseMembers_ws (f + 4) (ind ++ "  ".data) _ hind1]
    rw [show f + 4 = f + 3 + 1 from rfl,
        parseMembers_cons (f + 3) _ _ _ _ _ (fun u => parseV_quote (f + 2) s1 u) hind1]
    rw [show f + 3 = f + 2 + 1 from rfl,
        parseMembers_cons (f + 2) _ _ _ _ _ (fun u => parseV_quote (f + 1) s2 u) hind1]
    rw [show f + 2 = f + 1 + 1 from rfl,
        parseMembers_last (f + 1) _ _ _ _ _ (fun u => parseV_quote f s3 u) hind]
    rfl

theorem parseV_change (c : ChangeItem) (f : Nat) (ind rest : JStr)
    (hind : ∀ ch ∈ ind, ch = ' ') :
    parseV (f + 5) (stringifyVal ind (changeJsonVal c) ++ rest)
      = some (changeJsonVal c, rest) := by
  have h := parseV_obj3 "id".data "type".data "description".data
    c.id c.type.tag c.description f ind rest hind
  simpa [changeJsonVal] using h


theorem joinSep_head (sep x : JStr) (L : List JStr) :
    ∃ w, joinSep sep (x :: L) = x ++ w := by
  cases L with
  | nil => exact ⟨[], by simp [joinSep]⟩
  | cons y ys => exact ⟨sep ++ joinSep sep (y :: ys), by simp [joinSep]⟩

theorem stringify_change_head (ind : JStr) (c : ChangeItem) :
    ∃ z, stringifyVal ind (changeJsonVal c) = '\x7b' :: z := by
  refine ⟨'\n' :: ((ind ++ "  ".data) ++
    (joinSep (',' :: '\n' :: (ind ++ "  ".data))
       (stringifyMembers (ind ++ "  ".data)
         [("id".data, .jstr c.id), ("type".data, .jstr c.type.tag),
          ("description".data, .jstr c.description)])
     ++ '\n' :: (ind ++ ['\x7d']))), ?_⟩
  simp [stringifyVal, changeJsonVal]

theorem stringifyList_eq_map (ind : JStr) : ∀ L, stringifyList ind L = L.map (stringifyVal ind)
  | [] => by simp [stringifyList]
  | x :: xs => by simp [stringifyList, stringifyList_eq_map ind xs]

theorem parseElems_changes (cs : List ChangeItem) (c : ChangeItem) :
    ∀ (f : Nat) (ind rest : JStr), (∀ ch ∈ ind, ch = ' ') →
      parseElems (f + (6 * cs.length + 6))
        (joinSep (',' :: '\n' :: (ind ++ "  ".data))
           (stringifyList (ind ++ "  ".data) (List.map changeJsonVal (c :: cs)))
         ++ '\n' :: (ind ++ ']' :: rest))
        = some (List.map changeJsonVal (c :: cs), rest) := by
  induction cs generalizing c with
  | nil =>
    intro f ind rest hind
    have hind1 : ∀ ch ∈ ind ++ "  ".data, ch = ' ' := allSp_two ind hind
    have hj : joinSep (',' :: '\n' :: (ind ++ "  ".data))
        (stringifyList (ind ++ "  ".data) (List.map changeJsonVal [c]))
        = stringifyVal (ind ++ "  ".data) (changeJsonVal c) := by
      simp [stringifyList, joinSep]
    rw [hj, show f + (6 * List.length ([] : List ChangeItem) + 6) = (f + 5) + 1 from rfl,
        parseElems_last (f + 5) _ _ ind rest
          (fun u => parseV_change c f (ind ++ "  ".data) u hind1) hind]
    simp
  | cons c2 cs2 ih =>
    intro f ind rest hind
    have hind1 : ∀ ch ∈ ind ++ "  ".data, ch = ' ' := allSp_two ind hind
    have ht : joinSep (',' :: '\n' :: (ind ++ "  ".data))
        (stringifyList (ind ++ "  ".data) (List.map changeJsonVal (c :: c2 :: cs2)))
        ++ '\n' :: (ind ++ ']' :: rest)
        = stringifyVal (ind ++ "  ".data) (changeJsonVal c) ++ ',' :: '\n' ::
            ((ind ++ "  ".data) ++
              (joinSep (',' :: '\n' :: (ind ++ "  ".data))
                (stringifyList (ind ++ "  ".data) (List.map changeJsonVal (c2 :: cs2)))
               ++ '\n' :: (ind ++ ']' :: rest))) := by
      simp [stringifyList, joinSep]
    rw [ht, show f + (6 * List.length (c2 :: cs2) + 6)
          = (f + (6 * List.length cs2 + 6) + 5) + 1 from by
        simp [List.length_cons]; ring]
    have hv : ∀ u, parseV (f + (6 * List.length cs2 + 6) + 5)
        (stringifyVal (ind ++ "  ".data) (changeJsonVal c) ++ u)
        = some (changeJsonVal c, u) :=
      fun u => parseV_change c (f + (6 * List.length cs2 + 6)) (ind ++ "  ".data) u hind1
    rw [parseElems_cons (f + (6 * List.length cs2 + 6) + 5) _ _ _ _ hv hind1]
    have hih : parseElems (f + (6 * List.length cs2 + 6) + 5)
        (joinSep (',' :: '\n' :: (ind ++ "  ".data))
          (stringifyList (ind ++ "  ".data) (List.map changeJsonVal (c2 :: cs2)))
         ++ '\n' :: (ind ++ ']' :: rest))
        = some (List.map changeJsonVal (c2 :: cs2), rest) := by
      rw [show f + (6 * List.length cs2 + 6) + 5 = (f + 5) + (6 * List.length cs2 + 6) from by
        ring]
      exact ih c2 (f + 5) ind rest hind
    rw [hih]
    simp

theorem parseV_changesArr (cs : List ChangeItem) (f : Nat) (ind rest : JStr)
    (hind : ∀ ch ∈ ind, ch = ' ') :
    parseV (f + (6 * cs.length + 2))
      (stringifyVal ind (.jarr (List.map changeJsonVal cs)) ++ rest)
      = some (.jarr (List.map changeJsonVal cs), rest) := by
  cases cs with
  | nil =>
    have hp : stringifyVal ind (.jarr (List.map changeJsonVal [])) ++ rest
        = '[' :: ']' :: rest := by
      simp [stringifyVal]
    rw [hp, show f + (6 * List.length ([] : List ChangeItem) + 2) = (f + 1) + 1 from rfl]
    exact parseV_arr_empty (f + 1) _ _ rest
      (skipJWs_cons_of_not '[' (by decide) _)
      (skipJWs_cons_of_not ']' (by decide) _)
  | cons c cs2 =>
    have hind1 : ∀ ch ∈ ind ++ "  ".data, ch = ' ' := allSp_two ind hind
    have hp : stringifyVal ind (.jarr (List.map changeJsonVal (c :: cs2))) ++ rest
        = '[' :: '\n' :: ((ind ++ "  ".data) ++
            (joinSep (',' :: '\n' :: (ind ++ "  ".data))
              (stringifyList (ind ++ "  ".data) (List.map changeJsonVal (c :: cs2)))
             ++ '\n' :: (ind ++ ']' :: rest))) := by
      simp [stringifyVal, stringifyList]
    rw [hp, show f + (6 * List.length (c :: cs2) + 2)
          = ((f + 1) + (6 * List.length cs2 + 6)) + 1 from by
        simp [List.length_cons]; ring]
    refine parseV_arr ((f + 1) + (6 * List.length cs2 + 6)) _ _ _ rest
      (skipJWs_cons_of_not '[' (by decide) _) ?_ ?_
    · rw [skipJWs_cons_ws '\n' (by decide), skipJWs_append_sp hind1]
      have hL : stringifyList (ind ++ "  ".data) (List.map changeJsonVal (c :: cs2))
          = stringifyVal (ind ++ "  ".data) (changeJsonVal c)
            :: stringifyList (ind ++ "  ".data) (List.map changeJsonVal cs2) := by
        simp [stringifyList]
      rw [hL]
      obtain ⟨w, hw⟩ := joinSep_head (',' :: '\n' :: (ind ++ "  ".data))
        (stringifyVal (ind ++ "  ".data) (changeJsonVal c))
        (stringifyList (ind ++ "  ".data) (List.map changeJsonVal cs2))
      rw [hw]
      obtain ⟨z, hz⟩ := stringify_change_head (ind ++ "  ".data) c
      rw [hz]
      rw [show ('\x7b' :: z ++ w) ++ '\n' :: (ind ++ ']' :: rest)
            = '\x7b' :: (z ++ w ++ '\n' :: (ind ++ ']' :: rest)) from by simp]
      rw [skipJWs_cons_of_not '\x7b' (by decide)]
      exact ⟨_, rfl⟩
    · rw [parseElems_ws ((f + 1) + (6 * List.length cs2 + 6)) (ind ++ "  ".data) _ hind1]
      exact parseElems_changes cs2 c (f + 1) ind rest hind


/-- Fuel sufficient (beyond any slack `f`) to parse one printed release. -/
def fuelRel (r : Release) : Nat := 6 * r.changes.length + 6

/-- Fuel sufficient to parse the printed array elements of a release list. -/
def fuelRels : List Release → Nat
  | [] => 0
  | r :: rs => fuelRel r + 1 + fuelRels rs

theorem parseV_release (r : Release) (f : Nat) (ind rest : JStr)
    (hind : ∀ ch ∈ ind, ch = ' ') :
    parseV (f + (6 * r.changes.length + 6)) (stringifyVal ind (releaseJsonVal r) ++ rest)
      = some (releaseJsonVal r, rest) := by
  have hind1 : ∀ ch ∈ ind ++ "  ".data, ch = ' ' := allSp_two ind hind
  have hp : stringifyVal ind (releaseJsonVal r) ++ rest
      = '\x7b' :: '\n' :: ((ind ++ "  ".data) ++
          (quoteJson "version".data ++ ':' :: ' ' ::
            (quoteJson r.version ++ ',' :: '\n' :: ((ind ++ "  ".data) ++
          (quoteJson "date".data ++ ':' :: ' ' ::
            (quoteJson r.date ++ ',' :: '\n' :: ((ind ++ "  ".data) ++
          (quoteJson "changes".data ++ ':' :: ' ' ::
            (stringifyVal (ind ++ "  ".data) (.jarr (List.map changeJsonVal r.changes))
             ++ '\n' :: (ind ++ '\x7d' :: rest)))))))))) := by
    simp [releaseJsonVal, stringifyVal_obj_cons, stringifyMembers_cons,
          stringifyMembers_nil, stringifyVal_jstr, joinSep]
  rw [hp, show f + (6 * List.length r.changes + 6)
        = (f + (6 * List.length r.changes + 5)) + 1 from by ring]
  refine parseV_obj (f + (6 * List.length r.changes + 5)) _ _ _ rest
    (skipJWs_cons_of_not '\x7b' (by decide) _) ?_ ?_
  · rw [skipJWs_cons_ws '\n' (by decide), skipJWs_append_sp hind1, skipJWs_quote]
    exact ⟨_, rfl⟩
  · rw [parseMembers_ws (f + (6 * List.length r.changes + 5)) (ind ++ "  ".data) _ hind1]
    rw [show f + (6 * List.length r.changes + 5)
          = (f + (6 * List.length r.changes + 4)) + 1 from by ring,
        parseMembers_cons (f + (6 * List.length r.changes + 4)) _ _ _ _ _
          (fun u => parseV_quote (f + (6 * List.length r.changes + 3)) r.version u) hind1]
    rw [show f + (6 * List.length r.changes + 4)
          = (f + (6 * List.length r.changes + 3)) + 1 from by ring,
        parseMembers_cons (f + (6 * List.length r.changes + 3)) _ _ _ _ _
          (fun u => parseV_quote (f + (6 * List.length r.changes + 2)) r.date u) hind1]
    rw [show f + (6 * List.length r.changes + 3)
          = (f + (6 * List.length r.changes + 2)) + 1 from by ring,
        parseMembers_last (f + (6 * List.length r.changes + 2)) _ _ _ _ _
          (fun u => parseV_changesArr r.changes f (ind ++ "  ".data) u hind1) hind]
    rfl

theorem stringify_release_head (ind : JStr) (r : Release) :
    ∃ z, stringifyVal ind (releaseJsonVal r) = '\x7b' :: z := by
  refine ⟨'\n' :: ((ind ++ "  ".data) ++
    (joinSep (',' :: '\n' :: (ind ++ "  ".data))
       (stringifyMembers (ind ++ "  ".data)
         [("version".data, .jstr r.version), ("date".data, .jstr r.date),
          ("changes".data, .jarr (List.map changeJsonVal r.changes))])
     ++ '\n' :: (ind ++ ['\x7d']))), ?_⟩
  simp [stringifyVal, releaseJsonVal]

theorem parseElems_releases (rs : List Release) (r : Release) :
    ∀ (f : Nat) (ind rest : JStr), (∀ ch ∈ ind, ch = ' ') →
      parseElems (f + fuelRels (r :: rs))
        (joinSep (',' :: '\n' :: (ind ++ "  ".data))
           (stringifyList (ind ++ "  ".data) (List.map releaseJsonVal (r :: rs)))
         ++ '\n' :: (ind ++ ']' :: rest))
        = some (List.map releaseJsonVal (r :: rs), rest) := by
  induction rs generalizing r with
  | nil =>
    intro f ind rest hind
    have hind1 : ∀ ch ∈ ind ++ "  ".data, ch = ' ' := allSp_two ind hind
    have hj : joinSep (',' :: '\n' :: (ind ++ "  ".data))
        (stringifyList (ind ++ "  ".data) (List.map releaseJsonVal [r]))
        = stringifyVal (ind ++ "  ".data) (releaseJsonVal r) := by
      simp [stringifyList, joinSep]
    rw [hj, show f + fuelRels [r] = (f + (6 * List.length r.changes + 6)) + 1 from by
      simp [fuelRels, fuelRel]; ring]
    rw [parseElems_last (f + (6 * List.length r.changes + 6)) _ _ ind rest
      (fun u => parseV_release r f (ind ++ "  ".data) u hind1) hind]
    simp
  | cons r2 rs2 ih =>
    intro f ind rest hind
    have hind1 : ∀ ch ∈ ind ++ "  ".data, ch = ' ' := allSp_two ind hind
    have ht : joinSep (',' :: '\n' :: (ind ++ "  ".data))
        (stringifyList (ind ++ "  ".data) (List.map releaseJsonVal (r :: r2 :: rs2)))
        ++ '\n' :: (ind ++ ']' :: rest)
        = stringifyVal (ind ++ "  ".data) (releaseJsonVal r) ++ ',' :: '\n' ::
            ((ind ++ "  ".data) ++
              (joinSep (',' :: '\n' :: (ind ++ "  ".data))
                (stringifyList (ind ++ "  ".data) (List.map releaseJsonVal (r2 :: rs2)))
               ++ '\n' :: (ind ++ ']' :: rest))) := by
      simp [stringifyList, joinSep]
    rw [ht, show f + fuelRels (r :: r2 :: rs2)
          = ((f + fuelRels (r2 :: rs2)) + (6 * List.length r.changes + 6)) + 1 from by
        simp [fuelRels, fuelRel]; ring]
    have hv : ∀ u, parseV ((f + fuelRels (r2 :: rs2)) + (6 * List.length r.changes + 6))
        (stringifyVal (ind ++ "  ".data) (releaseJsonVal r) ++ u)
        = some (releaseJsonVal r, u) :=
      fun u => parseV_release r (f + fuelRels (r2 :: rs2)) (ind ++ "  ".data) u hind1
    rw [parseElems_cons ((f + fuelRels (r2 :: rs2)) + (6 * List.length r.changes + 6))
        _ _ _ _ hv hind1]
    have hih : parseElems ((f + fuelRels (r2 :: rs2)) + (6 * List.length r.changes + 6))
        (joinSep (',' :: '\n' :: (ind ++ "  ".data))
          (stringifyList (ind ++ "  ".data) (List.map releaseJsonVal (r2 :: rs2)))
         ++ '\n' :: (ind ++ ']' :: rest))
        = some (List.map releaseJsonVal (r2 :: rs2), rest) := by
      rw [show (f + fuelRels (r2 :: rs2)) + (6 * List.length r.changes + 6)
            = (f + (6 * List.length r.changes + 6)) + fuelRels (r2 :: rs2) from by ring]
      exact ih r2 (f + (6 * List.length r.changes + 6)) ind rest hind
    rw [hih]
    simp

theorem parseV_releasesArr (rs : List Release) (f : Nat) (ind rest : JStr)
    (hind : ∀ ch ∈ ind, ch = ' ') :
    parseV (f + (fuelRels rs + 2))
      (stringifyVal ind (.jarr (List.map releaseJsonVal rs)) ++ rest)
      = some (.jarr (List.map releaseJsonVal rs), rest) := by
  cases rs with
  | nil =>
    have hp : stringifyVal ind (.jarr (List.map releaseJsonVal [])) ++ rest
        = '[' :: ']' :: rest := by
      simp [stringifyVal]
    rw [hp, show f + (fuelRels [] + 2) = (f + 1) + 1 from rfl]
    exact parseV_arr_empty (f + 1) _ _ rest
      (skipJWs_cons_of_not '[' (by decide) _)
      (skipJWs_cons_of_not ']' (by decide) _)
  | cons r rs2 =>
    have hind1 : ∀ ch ∈ ind ++ "  ".data, ch = ' ' := allSp_two ind hind
    have hp : stringifyVal ind (.jarr (List.map releaseJsonVal (r :: rs2))) ++ rest
        = '[' :: '\n' :: ((ind ++ "  ".data) ++
            (joinSep (',' :: '\n' :: (ind ++ "  ".data))
              (stringifyList (ind ++ "  ".data) (List.map releaseJsonVal (r :: rs2)))
             ++ '\n' :: (ind ++ ']' :: rest))) := by
      simp [stringifyVal, stringifyList]
    rw [hp, show f + (fuelRels (r :: rs2) + 2)
          = ((f + 1) + fuelRels (r :: rs2)) + 1 from by ring]
    refine parseV_arr ((f + 1) + fuelRels (r :: rs2)) _ _ _ rest
      (skipJWs_cons_of_not '[' (by decide) _) ?_ ?_
    · rw [skipJWs_cons_ws '\n' (by decide), skipJWs_append_sp hind1]
      have hL : stringifyList (ind ++ "  ".data) (List.map releaseJsonVal (r :: rs2))
          = stringifyVal (ind ++ "  ".data) (releaseJsonVal r)
            :: stringifyList (ind ++ "  ".data) (List.map releaseJsonVal rs2) := by
        simp [stringifyList]
      rw [hL]
      obtain ⟨w, hw⟩ := joinSep_head (',' :: '\n' :: (ind ++ "  ".data))
        (stringifyVal (ind ++ "  ".data) (releaseJsonVal r))
        (stringifyList (ind ++ "  ".data) (List.map releaseJsonVal rs2))
      rw [hw]
      obtain ⟨z, hz⟩ := stringify_release_head (ind ++ "  ".data) r
      rw [hz]
      rw [show ('\x7b' :: z ++ w) ++ '\n' :: (ind ++ ']' :: rest)
            = '\x7b' :: (z ++ w ++ '\n' :: (ind ++ ']' :: rest)) from by simp]
      rw [skipJWs_cons_of_not '\x7b' (by decide)]
      exact ⟨_, rfl⟩
    · rw [parseElems_ws ((f + 1) + fuelRels (r :: rs2)) (ind ++ "  ".data) _ hind1]
      exact parseElems_releases rs2 r (f + 1) ind rest hind

theorem parseV_top (rs : List Release) (f : Nat) (rest : JStr) :
    parseV (f + (fuelRels rs + 4)) (generateJSON rs ++ rest)
      = some (releasesJsonVal rs, rest) := by
  have hind1 : ∀ ch ∈ ([] : JStr) ++ "  ".data, ch = ' ' :=
    allSp_two [] (by intro ch h; exact absurd h (List.not_mem_nil ch))
  have hp : generateJSON rs ++ rest
      = '\x7b' :: '\n' :: ((([] : JStr) ++ "  ".data) ++
          (quoteJson "releases".data ++ ':' :: ' ' ::
            (stringifyVal (([] : JStr) ++ "  ".data) (.jarr (List.map releaseJsonVal rs))
             ++ '\n' :: (([] : JStr) ++ '\x7d' :: rest)))) := by
    simp [generateJSON, releasesJsonVal, stringifyVal_obj_cons, stringifyMembers_cons,
          stringifyMembers_nil, joinSep]
  rw [hp, show f + (fuelRels rs + 4) = (f + (fuelRels rs + 3)) + 1 from by ring]
  refine parseV_obj (f + (fuelRels rs + 3)) _ _ _ rest
    (skipJWs_cons_of_not '\x7b' (by decide) _) ?_ ?_
  · rw [skipJWs_cons_ws '\n' (by decide), skipJWs_append_sp hind1, skipJWs_quote]
    exact ⟨_, rfl⟩
  · rw [parseMembers_ws (f + (fuelRels rs + 3)) (([] : JStr) ++ "  ".data) _ hind1]
    rw [show f + (fuelRels rs + 3) = (f + (fuelRels rs + 2)) + 1 from by ring,
        parseMembers_last (f + (fuelRels rs + 2)) _ _ _ _ _
          (fun u => parseV_releasesArr rs f (([] : JStr) ++ "  ".data) u hind1)
          (fun ch h => absurd h (List.not_mem_nil ch))]


theorem stringifyVal_arr_nil (ind : JStr) : stringifyVal ind (.jarr []) = ['[', ']'] := by
  simp [stringifyVal]

theorem stringifyVal_arr_cons (ind : JStr) (x : JsonVal) (xs : List JsonVal) :
    stringifyVal ind (.jarr (x :: xs))
      = '[' :: '\n' :: (ind ++ "  ".data)
          ++ joinSep (',' :: '\n' :: (ind ++ "  ".data))
              (stringifyList (ind ++ "  ".data) (x :: xs))
          ++ '\n' :: (ind ++ [']']) := by
  simp [stringifyVal]

theorem lenQuote (s : JStr) : 2 ≤ (quoteJson s).length := by
  simp only [quoteJson, List.length_cons, List.length_append]
  omega

theorem lenJoin_ge_sum (sep : JStr) : ∀ L : List JStr,
    (L.map List.length).sum ≤ (joinSep sep L).length := by
  intro L
  induction L with
  | nil => simp [joinSep]
  | cons x xs ih =>
    cases xs with
    | nil => simp [joinSep]
    | cons y ys =>
      simp only [joinSep, List.length_append, List.map_cons, List.sum_cons] at *
      omega

theorem sum_map_le {α : Type} (g : α → Nat) (m : Nat) (h : ∀ a, m ≤ g a) :
    ∀ L : List α, m * L.length ≤ (L.map g).sum := by
  intro L
  induction L with
  | nil => simp
  | cons a L ih =>
    simp only [List.map_cons, List.sum_cons, List.length_cons]
    have := h a
    have : m * (L.length + 1) = m * L.length + m := by ring
    omega

theorem lenChange6 (ind : JStr) (c : ChangeItem) :
    6 ≤ (stringifyVal ind (changeJsonVal c)).length := by
  have h1 := lenQuote "id".data
  simp only [changeJsonVal, stringifyVal_obj_cons, stringifyMembers_cons,
    stringifyMembers_nil, stringifyVal_jstr, joinSep,
    List.length_cons, List.length_append]
  omega

theorem lenChangesArr (ind : JStr) (cs : List ChangeItem) :
    6 * cs.length ≤ (stringifyVal ind (.jarr (List.map changeJsonVal cs))).length := by
  cases cs with
  | nil => simp [stringifyVal_arr_nil]
  | cons c cs2 =>
    rw [show (List.map changeJsonVal (c :: cs2))
          = changeJsonVal c :: List.map changeJsonVal cs2 from by simp]
    rw [stringifyVal_arr_cons, stringifyList_eq_map]
    have hj := lenJoin_ge_sum (',' :: '\n' :: (ind ++ "  ".data))
      (stringifyList (ind ++ "  ".data) (changeJsonVal c :: List.map changeJsonVal cs2))
    rw [stringifyList_eq_map] at hj
    rw [show (List.map (stringifyVal (ind ++ "  ".data))
            (changeJsonVal c :: List.map changeJsonVal cs2)).map List.length
          = (c :: cs2).map
              (fun a => (stringifyVal (ind ++ "  ".data) (changeJsonVal a)).length) from by
      simp [List.map_map, Function.comp]] at hj
    have hs := sum_map_le
      (fun a => (stringifyVal (ind ++ "  ".data) (changeJsonVal a)).length) 6
      (fun a => lenChange6 (ind ++ "  ".data) a) (c :: cs2)
    simp only [List.length_cons, List.length_append]
    simp only [List.length_cons] at hs
    simp only [show ("  ".data : JStr) = [' ', ' '] from rfl] at *
    omega

theorem lenRel7 (ind : JStr) (r : Release) :
    6 * r.changes.length + 7 ≤ (stringifyVal ind (releaseJsonVal r)).length := by
  have h1 := lenQuote "version".data
  have h2 := lenQuote r.version
  have h3 := lenQuote "date".data
  have h4 := lenQuote r.date
  have h5 := lenQuote "changes".data
  have h6 := lenChangesArr (ind ++ "  ".data) r.changes
  simp only [releaseJsonVal, stringifyVal_obj_cons, stringifyMembers_cons,
    stringifyMembers_nil, stringifyVal_jstr, joinSep,
    List.length_cons, List.length_append]
  simp only [show ("  ".data : JStr) = [' ', ' '] from rfl] at *
  omega

theorem fuelRels_le_sum (ind : JStr) : ∀ rs : List Release,
    fuelRels rs ≤ (rs.map
      (fun r => (stringifyVal ind (releaseJsonVal r)).length)).sum := by
  intro rs
  induction rs with
  | nil => simp [fuelRels]
  | cons r rs2 ih =>
    have h := lenRel7 ind r
    simp only [fuelRels, fuelRel, List.map_cons, List.sum_cons]
    omega

theorem lenRelsArr (ind : JStr) (rs : List Release) :
    fuelRels rs ≤ (stringifyVal ind (.jarr (List.map releaseJsonVal rs))).length := by
  cases rs with
  | nil => simp [stringifyVal_arr_nil, fuelRels]
  | cons r rs2 =>
    rw [show (List.map releaseJsonVal (r :: rs2))
          = releaseJsonVal r :: List.map releaseJsonVal rs2 from by simp]
    rw [stringifyVal_arr_cons, stringifyList_eq_map]
    have hj := lenJoin_ge_sum (',' :: '\n' :: (ind ++ "  ".data))
      (stringifyList (ind ++ "  ".data) (releaseJsonVal r :: List.map releaseJsonVal rs2))
    rw [stringifyList_eq_map] at hj
    rw [show (List.map (stringifyVal (ind ++ "  ".data))
            (releaseJsonVal r :: List.map releaseJsonVal rs2)).map List.length
          = (r :: rs2).map
              (fun a => (stringifyVal (ind ++ "  ".data) (releaseJsonVal a)).length) from by
      simp [List.map_map, Function.comp]] at hj
    have hs := fuelRels_le_sum (ind ++ "  ".data) (r :: rs2)
    simp only [List.length_cons, List.length_append]
    simp only [show ("  ".data : JStr) = [' ', ' '] from rfl] at *
    omega

theorem lenTop (rs : List Release) : fuelRels rs + 3 ≤ (generateJSON rs).length := by
  have h1 := lenQuote "releases".data
  have h2 := lenRelsArr (([] : JStr) ++ "  ".data) rs
  simp only [generateJSON, releasesJsonVal, stringifyVal_obj_cons,
    stringifyMembers_cons, stringifyMembers_nil, joinSep,
    List.length_cons, List.length_append]
  simp only [show ("  ".data : JStr) = [' ', ' '] from rfl] at *
  omega


theorem decodeType_tag (t : ChangeType) : decodeType t.tag = some t := by
  cases t <;> decide

theorem decodeChange_round (c : ChangeItem) : decodeChange (changeJsonVal c) = some c := by
  simp [changeJsonVal, decodeChange, decodeType_tag]

theorem decodeList_changes : ∀ cs : List ChangeItem,
    decodeList decodeChange (List.map changeJsonVal cs) = some cs := by
  intro cs
  induction cs with
  | nil => simp [decodeList]
  | cons c cs ih => simp [decodeList, decodeChange_round, ih]

theorem decodeRelease_round (r : Release) : decodeRelease (releaseJsonVal r) = some r := by
  simp [releaseJsonVal, decodeRelease, decodeList_changes]

theorem decodeList_releases : ∀ rs : List Release,
    decodeList decodeRelease (List.map releaseJsonVal rs) = some rs := by
  intro rs
  induction rs with
  | nil => simp [decodeList]
  | cons r rs ih => simp [decodeList, decodeRelease_round, ih]

theorem decodeTop_round (rs : List Release) : decodeTop (releasesJsonVal rs) = some rs := by
  simp [releasesJsonVal, decodeTop, decodeList_releases]

theorem parseJson_generate (rs : List Release) :
    parseJson (generateJSON rs) = some (releasesJsonVal rs) := by
  have hlen : fuelRels rs + 3 ≤ (generateJSON rs).length := lenTop rs
  have hV : parseV ((generateJSON rs).length + 1) (generateJSON rs)
      = some (releasesJsonVal rs, []) := by
    have h := parseV_top rs ((generateJSON rs).length + 1 - (fuelRels rs + 4)) []
    rw [List.append_nil] at h
    rw [show (generateJSON rs).length + 1
          = ((generateJSON rs).length + 1 - (fuelRels rs + 4)) + (fuelRels rs + 4) from by
      omega]
    exact h
  rw [parseJson, hV]
  simp [skipJWs]


/-- C1: for every release list `R` in which no release has an empty changes
list and no change entry has an empty description, parsing the string
`generateJSON R` as JSON succeeds and yields exactly the single-member
object mapping "releases" to the array of releases of `R`, and decoding
that value recovers every release's version, date, and every entry's id,
type and description unchanged, in the same order. -/
theorem json_round_trip (R : List Release)
    (hc : ∀ r ∈ R, r.changes ≠ [])
    (hd : ∀ r ∈ R, ∀ c ∈ r.changes, c.description ≠ []) :
    parseJson (generateJSON R) = some (releasesJsonVal R) ∧
      (parseJson (generateJSON R)).bind decodeTop = some R := by
  refine ⟨parseJson_generate R, ?_⟩
  rw [parseJson_generate R]
  simp [decodeTop_round]

theorem json_round_trip_witness :
    (∀ r ∈ ([⟨"1.2.0".data, "2025-01-02".data,
          [⟨"abc123".data, ChangeType.added, "New export".data⟩]⟩] : List Release),
        r.changes ≠ []) ∧
      (parseJson (generateJSON [⟨"1.2.0".data, "2025-01-02".data,
          [⟨"abc123".data, ChangeType.added, "New export".data⟩]⟩])).bind decodeTop
        = some [⟨"1.2.0".data, "2025-01-02".data,
            [⟨"abc123".data, ChangeType.added, "New export".data⟩]⟩] :=
  ⟨by decide,
   (json_round_trip [⟨"1.2.0".data, "2025-01-02".data,
        [⟨"abc123".data, ChangeType.added, "New export".data⟩]⟩]
      (by decide) (by decide)).2⟩

end Shiplog
